import Mathlib

/-
Verification of the SparseMatrix module (dsparse_matrix.py).

The Python class stores a sparse integer matrix as a dict keyed by
(row, col) pairs.  We embed the dict as an association list of entries
(key, value) with unique keys: `dictFind`, `dictInsert`, `dictErase`
model dict lookup, `d[k] = v` assignment and `del d[k]`.

Text handling (load_from_file / save_to_file) is modelled on `List Char`:
`splitCh` models `str.split(sep)`, `pyStrip` models `str.strip()`,
`stripParens` models `str.strip('()')`, `pyInt` models the `int(...)`
builtin on a string argument, and `intChars` models `str(...)` applied to
an integer.  `load_from_file` takes the receiver matrix and the full file
text and returns the post state of the receiver together with the error
raised, if any (Python mutates `self` in place, so the post state is
meaningful even when an error is raised).  `parseFromText` is the
constructor path `SparseMatrix(file_path)`: load into a fresh matrix,
discarding the partial object when an error propagates.
-/

set_option maxRecDepth 4000

namespace SpMat

abbrev Key := Int × Int
abbrev Entry := Key × Int

/-- Dict lookup: `d.get(k)` / `d[k]`, as an association-list search. -/
def dictFind : List Entry → Key → Option Int
  | [], _ => none
  | e :: rest, k => if e.1 = k then some e.2 else dictFind rest k

/-- Dict assignment `d[k] = v`: overwrite the entry for `k` if present,
otherwise append a fresh entry. -/
def dictInsert : List Entry → Key → Int → List Entry
  | [], k, v => [(k, v)]
  | e :: rest, k, v => if e.1 = k then (k, v) :: rest else e :: dictInsert rest k v

/-- Dict deletion `del d[k]`: remove the entry for `k`. -/
def dictErase : List Entry → Key → List Entry
  | [], _ => []
  | e :: rest, k => if e.1 = k then rest else e :: dictErase rest k

/-- The SparseMatrix object: `rows`, `cols` and the dict of non-zero cells. -/
structure SparseMatrix where
  rows : Int
  cols : Int
  matrix : List Entry
deriving DecidableEq

def keysOf (L : List Entry) : List Key := L.map Prod.fst

/-- Ambient invariant of a Python dict: keys are unique. -/
def SparseMatrix.WF (M : SparseMatrix) : Prop := (keysOf M.matrix).Nodup

instance (M : SparseMatrix) : Decidable M.WF := by
  unfold SparseMatrix.WF; infer_instance

/-- The sparsity invariant of the spec: no stored cell has value 0. -/
def NoZeros (M : SparseMatrix) : Prop := ∀ e ∈ M.matrix, e.2 ≠ 0

instance (M : SparseMatrix) : Decidable (NoZeros M) := by
  unfold NoZeros; infer_instance

/-- Out-of-range-free storage: every stored key lies inside
`[0, rows) × [0, cols)`. -/
def InRange (M : SparseMatrix) : Prop :=
  ∀ e ∈ M.matrix, 0 ≤ e.1.1 ∧ e.1.1 < M.rows ∧ 0 ≤ e.1.2 ∧ e.1.2 < M.cols

instance (M : SparseMatrix) : Decidable (InRange M) := by
  unfold InRange; infer_instance

/-- `get_element`: `self.matrix.get((row, col), 0)`. -/
def SparseMatrix.get_element (M : SparseMatrix) (row col : Int) : Int :=
  (dictFind M.matrix (row, col)).getD 0

/-- `set_element`: store when non-zero, delete any existing entry when zero. -/
def SparseMatrix.set_element (M : SparseMatrix) (row col value : Int) : SparseMatrix :=
  if value ≠ 0 then { M with matrix := dictInsert M.matrix (row, col) value }
  else if (dictFind M.matrix (row, col)).isSome then
    { M with matrix := dictErase M.matrix (row, col) }
  else M

/-- The one error kind raised by the algebraic operations
(`ValueError` for mismatched dimensions). -/
inductive OpError
  | dimensionMismatch
deriving DecidableEq

/-- `keys = set(self.matrix.keys()).union(other.matrix.keys())`.
Set iteration order is unspecified in Python; we fix the order
"keys of self, then keys only in other", which is harmless because the
result of the fold is order-independent. -/
def unionKeys (A B : SparseMatrix) : List Key :=
  keysOf A.matrix ++ (keysOf B.matrix).filter (fun k => decide (k ∉ keysOf A.matrix))

/-- `add`: dimension check, then set each union key to the sum of the two
`get_element` values. -/
def SparseMatrix.add (A B : SparseMatrix) : Except OpError SparseMatrix :=
  if A.rows ≠ B.rows ∨ A.cols ≠ B.cols then .error .dimensionMismatch
  else .ok ((unionKeys A B).foldl
      (fun M k => M.set_element k.1 k.2 (A.get_element k.1 k.2 + B.get_element k.1 k.2))
      ⟨A.rows, A.cols, []⟩)

/-- `subtract`: dimension check, then set each union key to the difference. -/
def SparseMatrix.subtract (A B : SparseMatrix) : Except OpError SparseMatrix :=
  if A.rows ≠ B.rows ∨ A.cols ≠ B.cols then .error .dimensionMismatch
  else .ok ((unionKeys A B).foldl
      (fun M k => M.set_element k.1 k.2 (A.get_element k.1 k.2 - B.get_element k.1 k.2))
      ⟨A.rows, A.cols, []⟩)

/-- `range(n)` over an `int`, as a list of `Int` (empty when `n ≤ 0`). -/
def intRange (n : Int) : List Int := (List.range n.toNat).map Int.ofNat

/-- One outer iteration of `multiply`: for entry `(i, k) → v` of `self`,
loop `j` over `range(other.cols)` and accumulate `v * other.matrix[(k, j)]`
into the result wherever `(k, j)` is stored in `other`. -/
def mulStep (B : SparseMatrix) (res : SparseMatrix) (e : Entry) : SparseMatrix :=
  (intRange B.cols).foldl
    (fun r j =>
      match dictFind B.matrix (e.1.2, j) with
      | some w => r.set_element e.1.1 j (r.get_element e.1.1 j + e.2 * w)
      | none => r) res

/-- `multiply`: inner-dimension check, then the sparse product loop. -/
def SparseMatrix.multiply (A B : SparseMatrix) : Except OpError SparseMatrix :=
  if A.cols ≠ B.rows then .error .dimensionMismatch
  else .ok (A.matrix.foldl (mulStep B) ⟨A.rows, B.cols, []⟩)

/-- `multiply_scalar`: set each stored entry to `value * scalar` in a fresh
matrix of the same dimensions. -/
def SparseMatrix.multiply_scalar (M : SparseMatrix) (scalar : Int) : SparseMatrix :=
  M.matrix.foldl (fun r e => r.set_element e.1.1 e.1.2 (e.2 * scalar))
    ⟨M.rows, M.cols, []⟩

/-! Text primitives. -/

/-- Python whitespace test for `str.strip()` (ASCII whitespace). -/
def isWS (c : Char) : Bool :=
  c == ' ' || c == '\t' || c == '\n' || c == '\r' || c == '\x0b' || c == '\x0c'

/-- `str.strip()`: drop whitespace at both ends. -/
def pyStrip (l : List Char) : List Char :=
  ((l.dropWhile isWS).reverse.dropWhile isWS).reverse

def isParen (c : Char) : Bool := c == '(' || c == ')'

/-- `str.strip('()')`: drop `(` and `)` characters at both ends. -/
def stripParens (l : List Char) : List Char :=
  ((l.dropWhile isParen).reverse.dropWhile isParen).reverse

/-- `str.split(sep)` for a one-character separator. -/
def splitCh (sep : Char) : List Char → List (List Char)
  | [] => [[]]
  | c :: rest =>
    if c = sep then [] :: splitCh sep rest
    else
      match splitCh sep rest with
      | h :: t => (c :: h) :: t
      | [] => [[c]]

/-- Decimal value of a digit string (no validity check; callers check). -/
def digitsVal (l : List Char) : Nat := l.foldl (fun a c => a * 10 + (c.toNat - 48)) 0

/-- The `int(...)` builtin on an already-stripped string: optional sign
followed by a non-empty run of ASCII digits. -/
def pyIntCore (l : List Char) : Option Int :=
  match l with
  | [] => none
  | c :: rest =>
    if c = '-' then
      if rest ≠ [] ∧ rest.all Char.isDigit then some (-(digitsVal rest : Int)) else none
    else if c = '+' then
      if rest ≠ [] ∧ rest.all Char.isDigit then some ((digitsVal rest : Int)) else none
    else if (c :: rest).all Char.isDigit then some ((digitsVal (c :: rest) : Int)) else none

/-- The `int(...)` builtin on a string: strips whitespace first. -/
def pyInt (l : List Char) : Option Int := pyIntCore (pyStrip l)

def digitChar : Nat → Char
  | 0 => '0' | 1 => '1' | 2 => '2' | 3 => '3' | 4 => '4'
  | 5 => '5' | 6 => '6' | 7 => '7' | 8 => '8' | _ => '9'

/-- Decimal digits of a natural number, most significant first
(models `str` on a non-negative int). -/
def natChars (n : Nat) : List Char :=
  if n < 10 then [digitChar n] else natChars (n / 10) ++ [digitChar (n % 10)]
termination_by n
decreasing_by exact Nat.div_lt_self (by omega) (by omega)

/-- `str(i)` for an int: optional minus sign and decimal digits. -/
def intChars (i : Int) : List Char :=
  if i < 0 then '-' :: natChars (-i).toNat else natChars i.toNat

/-! The load path. -/

/-- Error kinds that can escape `load_from_file` on a readable file.
The first three are the explicitly raised `ValueError`s (the spec's
FormatError); `headerIndex` is the `IndexError` escaping from
`lines[i].split('=')[1]` when a header line has no `=` or when there are
fewer than two non-blank lines; `headerInt` is the `ValueError` escaping
from `int(...)` on a non-numeric header value. -/
inductive LoadError
  | emptyFile
  | wrongFormat
  | badTriple
  | headerIndex
  | headerInt
deriving DecidableEq

/-- Which Python exception class each load error belongs to:
`True` for `ValueError`, `False` for `IndexError`. -/
def LoadError.isValueError : LoadError → Bool
  | .headerIndex => false
  | _ => true

/-- `lines = [line.strip() for line in file if line.strip()]`. -/
def cleanLines (text : List Char) : List (List Char) :=
  ((splitCh '\n' text).map pyStrip).filter (fun l => decide (l ≠ []))

/-- `int(lines[i].split('=')[1].strip())` on one header line. -/
def headerValue (l : List Char) : Except LoadError Int :=
  match splitCh '=' l with
  | _ :: f :: _ =>
    match pyInt (pyStrip f) with
    | some n => .ok n
    | none => .error .headerInt
  | _ => .error .headerIndex

/-- `line.startswith('(') and line.endswith(')')`. -/
def goodLine (l : List Char) : Bool :=
  decide (l.head? = some '(') && decide (l.getLast? = some ')')

/-- `row, col, value = map(int, line.strip('()').split(','))`. -/
def parseTriple (l : List Char) : Option (Int × Int × Int) :=
  match splitCh ',' (stripParens l) with
  | [a, b, c] =>
    match pyInt a, pyInt b, pyInt c with
    | some x, some y, some z => some (x, y, z)
    | _, _, _ => none
  | _ => none

/-- The element loop of `load_from_file` over `lines[2:]`: each triple is
stored by direct dict assignment (not via `set_element`), and the loop
aborts at the first bad line, returning the state reached so far. -/
def loadLines : SparseMatrix → List (List Char) → SparseMatrix × Option LoadError
  | M, [] => (M, none)
  | M, l :: rest =>
    if goodLine l then
      match parseTriple l with
      | some (r, c, v) => loadLines { M with matrix := dictInsert M.matrix (r, c) v } rest
      | none => (M, some .badTriple)
    else (M, some .wrongFormat)

/-- `load_from_file` on the text of a readable file: returns the post
state of the receiver (Python mutates `self` field by field) together
with the raised error, if any. -/
def SparseMatrix.load_from_file (pre : SparseMatrix) (text : List Char) :
    SparseMatrix × Option LoadError :=
  match cleanLines text with
  | [] => (pre, some .emptyFile)
  | l0 :: rest0 =>
    match headerValue l0 with
    | .error e => (pre, some e)
    | .ok r =>
      match rest0 with
      | [] => ({ pre with rows := r }, some .headerIndex)
      | l1 :: dataLines =>
        match headerValue l1 with
        | .error e => ({ pre with rows := r }, some e)
        | .ok c => loadLines { pre with rows := r, cols := c } dataLines

/-- The constructor path `SparseMatrix(file_path)`: load into a fresh
matrix (`rows = cols = 0`, empty dict); if the load raises, the error
propagates and no matrix is returned. -/
def parseFromTextL (text : List Char) : Except LoadError SparseMatrix :=
  match SparseMatrix.load_from_file ⟨0, 0, []⟩ text with
  | (M, none) => .ok M
  | (_, some e) => .error e

def parseFromText (text : String) : Except LoadError SparseMatrix :=
  parseFromTextL text.toList

/-- The effect of one data line on the receiver during load: directly
insert the parsed triple, or leave the matrix unchanged if the line does
not parse (used to describe the partial state left by a failed load). -/
def applyTriple (M : SparseMatrix) (l : List Char) : SparseMatrix :=
  match parseTriple l with
  | some (r, c, v) => { M with matrix := dictInsert M.matrix (r, c) v }
  | none => M

/-- Everything after the first `=` of a line.  This is the claim's
reading of the header parse in C10 ("whatever follows the first `=`"),
kept for comparison with the code's `line.split('=')[1]`, which is only
the text between the first and the second `=`. -/
def afterFirstEq : List Char → Option (List Char)
  | [] => none
  | c :: rest => if c = '=' then some rest else afterFirstEq rest

/-! The save path. -/

/-- Ordering used by `sorted(self.matrix.items())`: lexicographic on the
((row, col), value) tuples. -/
def entryLE (a b : Entry) : Bool :=
  decide (a.1.1 < b.1.1) ||
    (decide (a.1.1 = b.1.1) &&
      (decide (a.1.2 < b.1.2) ||
        (decide (a.1.2 = b.1.2) && decide (a.2 ≤ b.2))))

def insertEntry (e : Entry) : List Entry → List Entry
  | [] => [e]
  | f :: rest => if entryLE e f then e :: f :: rest else f :: insertEntry e rest

/-- Insertion sort modelling `sorted(...)` on the entry list. -/
def sortEntries : List Entry → List Entry
  | [] => []
  | e :: rest => insertEntry e (sortEntries rest)

/-- `f"({row}, {col}, {value})"`. -/
def entryLine (e : Entry) : List Char :=
  '(' :: (intChars e.1.1 ++ ',' :: ' ' ::
    (intChars e.1.2 ++ ',' :: ' ' :: (intChars e.2 ++ [')'])))

/-- The lines written by `save_to_file`, in order: `f"rows={R}"`,
`f"cols={C}"`, then one line per sorted entry. -/
def saveLines (M : SparseMatrix) : List (List Char) :=
  ('r' :: 'o' :: 'w' :: 's' :: '=' :: intChars M.rows) ::
    ('c' :: 'o' :: 'l' :: 's' :: '=' :: intChars M.cols) ::
      (sortEntries M.matrix).map entryLine

/-- `save_to_file`: the full text written to the file (each line followed
by a newline). -/
def SparseMatrix.save_to_file (M : SparseMatrix) : List Char :=
  (saveLines M).foldr (fun l acc => l ++ '\n' :: acc) []

def serializeToText (M : SparseMatrix) : String := ⟨M.save_to_file⟩

instance {ε α : Type} [DecidableEq ε] [DecidableEq α] : DecidableEq (Except ε α) := fun
  | .ok a, .ok b =>
    if h : a = b then .isTrue (by rw [h]) else .isFalse (by intro hc; cases hc; exact h rfl)
  | .error a, .error b =>
    if h : a = b then .isTrue (by rw [h]) else .isFalse (by intro hc; cases hc; exact h rfl)
  | .ok _, .error _ => .isFalse (by intro hc; cases hc)
  | .error _, .ok _ => .isFalse (by intro hc; cases hc)

/-! Dictionary lemmas. -/

theorem dictFind_cons (e : Entry) (rest : List Entry) (k : Key) :
    dictFind (e :: rest) k = if e.1 = k then some e.2 else dictFind rest k := rfl

theorem dictFind_insert (L : List Entry) (k : Key) (v : Int) (k' : Key) :
    dictFind (dictInsert L k v) k' = if k = k' then some v else dictFind L k' := by
  induction L with
  | nil => simp [dictInsert, dictFind]
  | cons e rest ih =>
    by_cases he : e.1 = k
    · simp only [dictInsert, if_pos he, dictFind]
      by_cases hk : k = k'
      · simp [hk]
      · simp [hk, he ▸ hk]
    · simp only [dictInsert, if_neg he, dictFind]
      by_cases hek : e.1 = k'
      · have : ¬ k = k' := fun h => he (h ▸ hek)
        simp [hek, this]
      · simp [hek, ih]

theorem mem_keysOf {L : List Entry} {k : Key} : k ∈ keysOf L ↔ ∃ v, (k, v) ∈ L := by
  unfold keysOf
  constructor
  · intro h
    rcases List.mem_map.mp h with ⟨e, he, hk⟩
    exact ⟨e.2, by rwa [show (k, e.2) = e from by rw [← hk]]⟩
  · rintro ⟨v, hv⟩
    exact List.mem_map.mpr ⟨(k, v), hv, rfl⟩

theorem dictFind_eq_none_iff {L : List Entry} {k : Key} :
    dictFind L k = none ↔ k ∉ keysOf L := by
  induction L with
  | nil => simp [dictFind, keysOf]
  | cons e rest ih =>
    simp only [dictFind, keysOf, List.map_cons, List.mem_cons]
    by_cases he : e.1 = k
    · simp [he]
    · simp only [if_neg he]
      rw [ih]
      unfold keysOf
      constructor
      · intro h hc
        rcases hc with hc | hc
        · exact he hc.symm
        · exact h hc
      · intro h hc
        exact h (Or.inr hc)

theorem dictFind_eq_some_iff {L : List Entry} (hnd : (keysOf L).Nodup) {k : Key} {v : Int} :
    dictFind L k = some v ↔ (k, v) ∈ L := by
  induction L with
  | nil => simp [dictFind]
  | cons e rest ih =>
    simp only [keysOf, List.map_cons, List.nodup_cons] at hnd
    simp only [dictFind, List.mem_cons]
    by_cases he : e.1 = k
    · simp only [if_pos he, Option.some_inj]
      constructor
      · intro h
        left
        rw [← h, ← he]
      · rintro (h | h)
        · rw [← h]
        · exfalso
          apply hnd.1
          rw [he]
          exact List.mem_map.mpr ⟨(k, v), h, rfl⟩
    · simp only [if_neg he]
      rw [ih hnd.2]
      constructor
      · exact fun h => Or.inr h
      · rintro (h | h)
        · exact absurd (congrArg Prod.fst h).symm he
        · exact h

theorem dictErase_sublist (L : List Entry) (k : Key) : (dictErase L k).Sublist L := by
  induction L with
  | nil => simp [dictErase]
  | cons e rest ih =>
    by_cases he : e.1 = k
    · simp only [dictErase, if_pos he]
      exact (List.sublist_cons_self e rest)
    · simp only [dictErase, if_neg he]
      exact ih.cons₂ e

theorem dictFind_erase {L : List Entry} (hnd : (keysOf L).Nodup) (k k' : Key) :
    dictFind (dictErase L k) k' = if k = k' then none else dictFind L k' := by
  induction L with
  | nil => simp [dictErase, dictFind]
  | cons e rest ih =>
    simp only [keysOf, List.map_cons, List.nodup_cons] at hnd
    by_cases he : e.1 = k
    · simp only [dictErase, if_pos he]
      by_cases hk : k = k'
      · rw [if_pos hk, dictFind_eq_none_iff]
        intro hc
        apply hnd.1
        rw [he, hk]
        exact hc
      · rw [if_neg hk]
        simp [dictFind, he ▸ hk]
    · simp only [dictErase, if_neg he, dictFind]
      by_cases hek : e.1 = k'
      · have : ¬ k = k' := fun h => he (h ▸ hek)
        simp [hek, this]
      · simp [hek, ih hnd.2]

theorem keysOf_insert (L : List Entry) (k : Key) (v : Int) :
    keysOf (dictInsert L k v) = if k ∈ keysOf L then keysOf L else keysOf L ++ [k] := by
  induction L with
  | nil => simp [dictInsert, keysOf]
  | cons e rest ih =>
    by_cases he : e.1 = k
    · simp only [dictInsert, if_pos he]
      unfold keysOf
      simp only [List.map_cons]
      rw [if_pos (List.mem_cons.mpr (Or.inl he.symm)), he]
    · simp only [dictInsert, if_neg he, keysOf, List.map_cons]
      unfold keysOf at ih
      by_cases hm : k ∈ List.map Prod.fst rest
      · rw [if_pos hm] at ih
        rw [if_pos (List.mem_cons.mpr (Or.inr hm)), ih]
      · rw [if_neg hm] at ih
        have : ¬ k ∈ e.1 :: List.map Prod.fst rest := by
          intro hc
          rcases List.mem_cons.mp hc with hc | hc
          · exact he hc.symm
          · exact hm hc
        rw [if_neg this, ih, List.cons_append]

theorem nodup_keysOf_insert {L : List Entry} (hnd : (keysOf L).Nodup) (k : Key) (v : Int) :
    (keysOf (dictInsert L k v)).Nodup := by
  rw [keysOf_insert]
  by_cases hm : k ∈ keysOf L
  · rwa [if_pos hm]
  · rw [if_neg hm]
    exact List.Nodup.append hnd (List.nodup_singleton k) (by simpa using hm)

theorem mem_dictInsert {L : List Entry} {k : Key} {v : Int} {e : Entry}
    (h : e ∈ dictInsert L k v) : e ∈ L ∨ e = (k, v) := by
  induction L with
  | nil => simpa [dictInsert] using h
  | cons f rest ih =>
    by_cases hf : f.1 = k
    · simp only [dictInsert, if_pos hf, List.mem_cons] at h
      rcases h with h | h
      · exact Or.inr h
      · exact Or.inl (List.mem_cons.mpr (Or.inr h))
    · simp only [dictInsert, if_neg hf, List.mem_cons] at h
      rcases h with h | h
      · exact Or.inl (List.mem_cons.mpr (Or.inl h))
      · rcases ih h with h | h
        · exact Or.inl (List.mem_cons.mpr (Or.inr h))
        · exact Or.inr h

/-! Lemmas about `set_element` and `get_element`. -/

theorem rows_set_element (M : SparseMatrix) (r c v : Int) :
    (M.set_element r c v).rows = M.rows := by
  unfold SparseMatrix.set_element
  split_ifs <;> rfl

theorem cols_set_element (M : SparseMatrix) (r c v : Int) :
    (M.set_element r c v).cols = M.cols := by
  unfold SparseMatrix.set_element
  split_ifs <;> rfl

theorem WF_set_element {M : SparseMatrix} (hWF : M.WF) (r c v : Int) :
    (M.set_element r c v).WF := by
  unfold SparseMatrix.set_element
  split_ifs with h1 h2
  · exact nodup_keysOf_insert hWF (r, c) v
  · exact List.Nodup.sublist (List.Sublist.map Prod.fst (dictErase_sublist _ _)) hWF
  · exact hWF

theorem NoZeros_set_element {M : SparseMatrix} (hNZ : NoZeros M) (r c v : Int) :
    NoZeros (M.set_element r c v) := by
  unfold SparseMatrix.set_element
  split_ifs with h1 h2
  · intro e he
    rcases mem_dictInsert he with he | he
    · exact hNZ e he
    · rw [he]; exact h1
  · intro e he
    exact hNZ e ((dictErase_sublist _ _).mem he)
  · exact hNZ

theorem get_set_element {M : SparseMatrix} (hWF : M.WF) (r c v r' c' : Int) :
    (M.set_element r c v).get_element r' c' =
      if (r, c) = (r', c') then v else M.get_element r' c' := by
  unfold SparseMatrix.set_element SparseMatrix.get_element
  by_cases hv : v ≠ 0
  · simp only [if_pos hv]
    rw [dictFind_insert]
    split_ifs <;> simp
  · simp only [if_neg hv]
    push_neg at hv
    subst hv
    by_cases hs : (dictFind M.matrix (r, c)).isSome
    · simp only [if_pos hs]
      rw [dictFind_erase hWF]
      split_ifs <;> simp
    · simp only [if_neg hs]
      split_ifs with h
      · rw [← h]
        rw [Option.not_isSome_iff_eq_none] at hs
        simp [hs]
      · rfl

/-- Generic preservation of a predicate along a fold. -/
theorem foldl_preserves {α : Type} {P : SparseMatrix → Prop}
    (step : SparseMatrix → α → SparseMatrix)
    (hstep : ∀ M x, P M → P (step M x)) :
    ∀ (l : List α) (M : SparseMatrix), P M → P (l.foldl step M) := by
  intro l
  induction l with
  | nil => intro M h; exact h
  | cons x rest ih => intro M h; exact ih (step M x) (hstep M x h)

/-! Folds of `set_element`, as used by add, subtract and multiply_scalar. -/

/-- After setting every key of `ks` to `f key`, a lookup returns `f (r, c)`
for keys in `ks` and is otherwise untouched. -/
theorem get_foldl_set (f : Key → Int) :
    ∀ (ks : List Key) (M : SparseMatrix), M.WF → ∀ r c,
      (ks.foldl (fun N k => N.set_element k.1 k.2 (f k)) M).get_element r c =
        if (r, c) ∈ ks then f (r, c) else M.get_element r c := by
  intro ks
  induction ks with
  | nil => intro M _ r c; simp
  | cons k rest ih =>
    intro M hWF r c
    simp only [List.foldl_cons]
    rw [ih (M.set_element k.1 k.2 (f k)) (WF_set_element hWF k.1 k.2 (f k)) r c]
    rw [get_set_element hWF]
    by_cases hmem : (r, c) ∈ rest
    · rw [if_pos hmem, if_pos (List.mem_cons.mpr (Or.inr hmem))]
    · rw [if_neg hmem]
      by_cases hk : k = (r, c)
      · have : (k.1, k.2) = (r, c) := by rw [← hk]
        rw [if_pos this, if_pos (List.mem_cons.mpr (Or.inl hk.symm)), hk]
      · have h1 : ¬ (k.1, k.2) = (r, c) := by simpa using hk
        have h2 : (r, c) ∉ k :: rest := by
          intro hc
          rcases List.mem_cons.mp hc with hc | hc
          · exact hk hc.symm
          · exact hmem hc
        rw [if_neg h1, if_neg h2]

/-- Same, for a fold over whole entries whose written value is a function
of the entry (used by multiply_scalar); needs unique keys in the entry
list so the looked-up value identifies the entry. -/
theorem get_foldl_set_scalar (s : Int) :
    ∀ (es : List Entry) (M : SparseMatrix), M.WF → (keysOf es).Nodup → ∀ r c,
      (es.foldl (fun N e => N.set_element e.1.1 e.1.2 (e.2 * s)) M).get_element r c =
        if (r, c) ∈ keysOf es then (dictFind es (r, c)).getD 0 * s
        else M.get_element r c := by
  intro es
  induction es with
  | nil => intro M _ _ r c; simp [keysOf]
  | cons e rest ih =>
    intro M hWF hnd r c
    simp only [keysOf, List.map_cons, List.nodup_cons] at hnd
    simp only [List.foldl_cons]
    rw [ih (M.set_element e.1.1 e.1.2 (e.2 * s)) (WF_set_element hWF _ _ _) hnd.2 r c]
    rw [get_set_element hWF]
    by_cases hmem : (r, c) ∈ keysOf rest
    · rw [if_pos hmem]
      have hne : ¬ e.1 = (r, c) := by
        intro hc
        exact hnd.1 (hc ▸ hmem)
      have : (r, c) ∈ keysOf (e :: rest) := by
        unfold keysOf at hmem ⊢
        simp only [List.map_cons, List.mem_cons]
        exact Or.inr hmem
      rw [if_pos this]
      simp only [dictFind, if_neg hne]
    · rw [if_neg hmem]
      by_cases hk : e.1 = (r, c)
      · have h1 : (e.1.1, e.1.2) = (r, c) := by rw [← hk]
        rw [if_pos h1]
        have : (r, c) ∈ keysOf (e :: rest) := by
          unfold keysOf
          simp only [List.map_cons, List.mem_cons]
          exact Or.inl hk.symm
        rw [if_pos this]
        simp only [dictFind, if_pos hk, Option.getD_some]
      · have h1 : ¬ (e.1.1, e.1.2) = (r, c) := by simpa using hk
        rw [if_neg h1]
        have : (r, c) ∉ keysOf (e :: rest) := by
          unfold keysOf at hmem ⊢
          simp only [List.map_cons, List.mem_cons]
          intro hc
          rcases hc with hc | hc
          · exact hk hc.symm
          · exact hmem hc
        rw [if_neg this]

/-! The multiply loops. -/

theorem mem_intRange {j n : Int} : j ∈ intRange n ↔ 0 ≤ j ∧ j < n := by
  unfold intRange
  simp only [List.mem_map, List.mem_range, Int.ofNat_eq_coe]
  constructor
  · rintro ⟨a, ha, rfl⟩
    omega
  · intro h
    exact ⟨j.toNat, by omega, by omega⟩

theorem intRange_nodup (n : Int) : (intRange n).Nodup :=
  List.Nodup.map (fun a b h => by
    rw [Int.ofNat_eq_coe, Int.ofNat_eq_coe] at h
    exact_mod_cast h) (List.nodup_range _)

/-- Effect of the inner `for j in range(other.cols)` loop of multiply on a
single cell of the accumulator. -/
theorem get_mulInner (B : SparseMatrix) (i k v : Int) :
    ∀ (js : List Int) (r : SparseMatrix), r.WF → js.Nodup → ∀ i₀ j₀,
      ((js.foldl (fun r j =>
          match dictFind B.matrix (k, j) with
          | some w => r.set_element i j (r.get_element i j + v * w)
          | none => r) r).get_element i₀ j₀ =
        r.get_element i₀ j₀ +
          if i₀ = i ∧ j₀ ∈ js then v * B.get_element k j₀ else 0) := by
  intro js
  induction js with
  | nil => intro r _ _ i₀ j₀; simp
  | cons j rest ih =>
    intro r hWF hnd i₀ j₀
    simp only [List.nodup_cons] at hnd
    simp only [List.foldl_cons]
    rcases hB : dictFind B.matrix (k, j) with _ | w
    · simp only [hB]
      rw [ih r hWF hnd.2 i₀ j₀]
      by_cases hc : i₀ = i ∧ j₀ ∈ j :: rest
      · rw [if_pos hc]
        rcases List.mem_cons.mp hc.2 with hj | hj
        · have : (j₀ ∈ rest) → False := fun hm => hnd.1 (hj ▸ hm)
          rw [if_neg (by rintro ⟨_, hm⟩; exact this hm)]
          have : B.get_element k j₀ = 0 := by
            unfold SparseMatrix.get_element
            rw [hj, hB]
            rfl
          rw [this, mul_zero]
        · rw [if_pos ⟨hc.1, hj⟩]
      · rw [if_neg hc]
        rw [if_neg (by rintro ⟨h1, h2⟩; exact hc ⟨h1, List.mem_cons.mpr (Or.inr h2)⟩)]
    · simp only [hB]
      have hWF2 : (r.set_element i j (r.get_element i j + v * w)).WF :=
        WF_set_element hWF _ _ _
      rw [ih _ hWF2 hnd.2 i₀ j₀]
      rw [get_set_element hWF]
      by_cases hij : (i, j) = (i₀, j₀)
      · rw [if_pos hij]
        have hi : i₀ = i := (congrArg Prod.fst hij).symm
        have hj : j₀ = j := (congrArg Prod.snd hij).symm
        subst hi
        subst hj
        have hrest : ¬ (i₀ = i₀ ∧ j₀ ∈ rest) := by
          rintro ⟨_, hm⟩
          exact hnd.1 hm
        rw [if_neg hrest, if_pos ⟨rfl, List.mem_cons.mpr (Or.inl rfl)⟩]
        have hw : B.get_element k j₀ = w := by
          unfold SparseMatrix.get_element
          rw [hB]
          rfl
        rw [hw]
        ring
      · rw [if_neg hij]
        by_cases hc : i₀ = i ∧ j₀ ∈ rest
        · rw [if_pos hc, if_pos ⟨hc.1, List.mem_cons.mpr (Or.inr hc.2)⟩]
        · rw [if_neg hc]
          rw [if_neg (by
            rintro ⟨h1, h2⟩
            rcases List.mem_cons.mp h2 with hj | hj
            · exact hij (by rw [h1, hj])
            · exact hc ⟨h1, hj⟩)]

theorem WF_mulStep (B : SparseMatrix) (res : SparseMatrix) (e : Entry)
    (hWF : res.WF) : (mulStep B res e).WF := by
  unfold mulStep
  apply foldl_preserves _ _ _ _ hWF
  intro M j hM
  rcases h : dictFind B.matrix (e.1.2, j) with _ | w
  · simpa [h] using hM
  · simpa [h] using WF_set_element hM _ _ _

theorem get_mulStep (B res : SparseMatrix) (e : Entry) (hWF : res.WF) (i₀ j₀ : Int) :
    (mulStep B res e).get_element i₀ j₀ =
      res.get_element i₀ j₀ +
        if i₀ = e.1.1 ∧ j₀ ∈ intRange B.cols then e.2 * B.get_element e.1.2 j₀ else 0 := by
  unfold mulStep
  exact get_mulInner B e.1.1 e.1.2 e.2 (intRange B.cols) res hWF (intRange_nodup _) i₀ j₀

/-- Effect of the whole outer loop of multiply: each entry of `self`
contributes `v * other[k, j]` to row `i` wherever `j` is in range. -/
theorem get_foldl_mulStep (B : SparseMatrix) :
    ∀ (es : List Entry) (res : SparseMatrix), res.WF → ∀ i j,
      (es.foldl (mulStep B) res).get_element i j =
        res.get_element i j +
          (es.map (fun e =>
            if i = e.1.1 ∧ j ∈ intRange B.cols then e.2 * B.get_element e.1.2 j
            else 0)).sum := by
  intro es
  induction es with
  | nil => intro res _ i j; simp
  | cons e rest ih =>
    intro res hWF i j
    simp only [List.foldl_cons, List.map_cons, List.sum_cons]
    rw [ih (mulStep B res e) (WF_mulStep B res e hWF) i j]
    rw [get_mulStep B res e hWF i j]
    ring

/-! Small facts about empty matrices, union keys and operation results. -/

theorem WF_empty (r c : Int) : (⟨r, c, []⟩ : SparseMatrix).WF := by
  unfold SparseMatrix.WF keysOf
  simp

theorem NoZeros_empty (r c : Int) : NoZeros ⟨r, c, []⟩ := by
  intro e he
  simp at he

theorem get_empty (rs cs r c : Int) : (⟨rs, cs, []⟩ : SparseMatrix).get_element r c = 0 := rfl

theorem get_eq_zero_of_not_mem {M : SparseMatrix} {r c : Int}
    (h : (r, c) ∉ keysOf M.matrix) : M.get_element r c = 0 := by
  unfold SparseMatrix.get_element
  rw [dictFind_eq_none_iff.mpr h]
  rfl

theorem not_mem_unionKeys {A B : SparseMatrix} {k : Key} (h : k ∉ unionKeys A B) :
    k ∉ keysOf A.matrix ∧ k ∉ keysOf B.matrix := by
  unfold unionKeys at h
  rw [List.mem_append] at h
  push_neg at h
  refine ⟨h.1, fun hB => ?_⟩
  exact h.2 (List.mem_filter.mpr ⟨hB, decide_eq_true h.1⟩)

/-- The dimensions of the accumulator are unchanged by a fold of
`set_element` steps. -/
theorem dims_foldl_set {α : Type} (step : SparseMatrix → α → SparseMatrix)
    (hstep : ∀ M x, (step M x).rows = M.rows ∧ (step M x).cols = M.cols)
    (l : List α) (M : SparseMatrix) :
    (l.foldl step M).rows = M.rows ∧ (l.foldl step M).cols = M.cols := by
  have := foldl_preserves (P := fun N => N.rows = M.rows ∧ N.cols = M.cols) step
    (fun N x h => ⟨(hstep N x).1.trans h.1, (hstep N x).2.trans h.2⟩) l M ⟨rfl, rfl⟩
  exact this

/-- Full behavioural description of a successful `add`. -/
theorem add_spec (A B : SparseMatrix) (hr : A.rows = B.rows) (hc : A.cols = B.cols) :
    ∃ C, A.add B = Except.ok C ∧ C.rows = A.rows ∧ C.cols = A.cols ∧
      ∀ r c, C.get_element r c = A.get_element r c + B.get_element r c := by
  refine ⟨(unionKeys A B).foldl
      (fun M k => M.set_element k.1 k.2 (A.get_element k.1 k.2 + B.get_element k.1 k.2))
      ⟨A.rows, A.cols, []⟩, ?_, ?_, ?_, ?_⟩
  · unfold SparseMatrix.add
    rw [if_neg (by push_neg; exact ⟨hr, hc⟩)]
  · exact (dims_foldl_set
      (fun (M : SparseMatrix) (k : Key) => M.set_element k.1 k.2 (A.get_element k.1 k.2 + B.get_element k.1 k.2))
      (fun M k => ⟨rows_set_element M k.1 k.2 _, cols_set_element M k.1 k.2 _⟩) _ _).1
  · exact (dims_foldl_set
      (fun (M : SparseMatrix) (k : Key) => M.set_element k.1 k.2 (A.get_element k.1 k.2 + B.get_element k.1 k.2))
      (fun M k => ⟨rows_set_element M k.1 k.2 _, cols_set_element M k.1 k.2 _⟩) _ _).2
  · intro r c
    have hg := get_foldl_set (fun k => A.get_element k.1 k.2 + B.get_element k.1 k.2)
      (unionKeys A B) ⟨A.rows, A.cols, []⟩ (WF_empty _ _) r c
    refine hg.trans ?_
    by_cases hmem : (r, c) ∈ unionKeys A B
    · rw [if_pos hmem]
    · rw [if_neg hmem, get_empty]
      have hz := not_mem_unionKeys hmem
      rw [get_eq_zero_of_not_mem hz.1, get_eq_zero_of_not_mem hz.2]
      simp

/-- Full behavioural description of a successful `subtract`. -/
theorem subtract_spec (A B : SparseMatrix) (hr : A.rows = B.rows) (hc : A.cols = B.cols) :
    ∃ C, A.subtract B = Except.ok C ∧ C.rows = A.rows ∧ C.cols = A.cols ∧
      ∀ r c, C.get_element r c = A.get_element r c - B.get_element r c := by
  refine ⟨(unionKeys A B).foldl
      (fun M k => M.set_element k.1 k.2 (A.get_element k.1 k.2 - B.get_element k.1 k.2))
      ⟨A.rows, A.cols, []⟩, ?_, ?_, ?_, ?_⟩
  · unfold SparseMatrix.subtract
    rw [if_neg (by push_neg; exact ⟨hr, hc⟩)]
  · exact (dims_foldl_set
      (fun (M : SparseMatrix) (k : Key) => M.set_element k.1 k.2 (A.get_element k.1 k.2 - B.get_element k.1 k.2))
      (fun M k => ⟨rows_set_element M k.1 k.2 _, cols_set_element M k.1 k.2 _⟩) _ _).1
  · exact (dims_foldl_set
      (fun (M : SparseMatrix) (k : Key) => M.set_element k.1 k.2 (A.get_element k.1 k.2 - B.get_element k.1 k.2))
      (fun M k => ⟨rows_set_element M k.1 k.2 _, cols_set_element M k.1 k.2 _⟩) _ _).2
  · intro r c
    have hg := get_foldl_set (fun k => A.get_element k.1 k.2 - B.get_element k.1 k.2)
      (unionKeys A B) ⟨A.rows, A.cols, []⟩ (WF_empty _ _) r c
    refine hg.trans ?_
    by_cases hmem : (r, c) ∈ unionKeys A B
    · rw [if_pos hmem]
    · rw [if_neg hmem, get_empty]
      have hz := not_mem_unionKeys hmem
      rw [get_eq_zero_of_not_mem hz.1, get_eq_zero_of_not_mem hz.2]
      simp

/-! Zero-freeness of operation results. -/

theorem NoZeros_foldl_set {α : Type} (step : SparseMatrix → α → SparseMatrix)
    (hstep : ∀ M x, NoZeros M → NoZeros (step M x))
    (l : List α) (M : SparseMatrix) (h : NoZeros M) : NoZeros (l.foldl step M) :=
  foldl_preserves step hstep l M h

theorem NoZeros_mulStep (B : SparseMatrix) (res : SparseMatrix) (e : Entry)
    (h : NoZeros res) : NoZeros (mulStep B res e) := by
  unfold mulStep
  apply foldl_preserves _ _ _ _ h
  intro M j hM
  rcases hB : dictFind B.matrix (e.1.2, j) with _ | w
  · simpa [hB] using hM
  · simpa [hB] using NoZeros_set_element hM _ _ _

theorem NoZeros_add {A B C : SparseMatrix} (h : A.add B = Except.ok C) : NoZeros C := by
  unfold SparseMatrix.add at h
  by_cases hd : A.rows ≠ B.rows ∨ A.cols ≠ B.cols
  · rw [if_pos hd] at h
    cases h
  · rw [if_neg hd] at h
    cases h
    exact NoZeros_foldl_set _ (fun M k hM => NoZeros_set_element hM _ _ _) _ _
      (NoZeros_empty _ _)

theorem NoZeros_subtract {A B C : SparseMatrix} (h : A.subtract B = Except.ok C) :
    NoZeros C := by
  unfold SparseMatrix.subtract at h
  by_cases hd : A.rows ≠ B.rows ∨ A.cols ≠ B.cols
  · rw [if_pos hd] at h
    cases h
  · rw [if_neg hd] at h
    cases h
    exact NoZeros_foldl_set _ (fun M k hM => NoZeros_set_element hM _ _ _) _ _
      (NoZeros_empty _ _)

theorem NoZeros_multiply {A B C : SparseMatrix} (h : A.multiply B = Except.ok C) :
    NoZeros C := by
  unfold SparseMatrix.multiply at h
  by_cases hd : A.cols ≠ B.rows
  · rw [if_pos hd] at h
    cases h
  · rw [if_neg hd] at h
    cases h
    exact NoZeros_foldl_set _ (fun M e hM => NoZeros_mulStep B M e hM) _ _
      (NoZeros_empty _ _)

theorem NoZeros_multiply_scalar (M : SparseMatrix) (s : Int) :
    NoZeros (M.multiply_scalar s) :=
  NoZeros_foldl_set _ (fun _ _ hN => NoZeros_set_element hN _ _ _) _ _
    (NoZeros_empty _ _)

/-! Claim theorems: C1, C3, C5, C8, C9. -/

/-- C1, counterexample: the claim says a value-0 triple in the input text
yields no stored entry, but `load_from_file` assigns triples directly
into the dict (not via `set_element`), so parsing `(0, 0, 0)` stores an
explicit zero cell. -/
theorem claim1_counterexample :
    parseFromText "rows=1\ncols=1\n(0, 0, 0)" = Except.ok ⟨1, 1, [((0, 0), 0)]⟩
    ∧ ¬ NoZeros ⟨1, 1, [((0, 0), 0)]⟩ := by
  constructor
  · rfl
  · intro h
    exact (h ((0, 0), 0) (List.mem_singleton.mpr rfl)) rfl

/-- C1 (amended): matrices produced by `set_element` (from a receiver with
no zero cells) and by `add`, `subtract`, `multiply`, `multiply_scalar`
have no stored zero cells; the load path is the exception, since it
bypasses `set_element`. -/
theorem claim1_amended (A B : SparseMatrix) (r c v s : Int) (hA : NoZeros A) :
    NoZeros (A.set_element r c v)
    ∧ (∀ C, A.add B = Except.ok C → NoZeros C)
    ∧ (∀ C, A.subtract B = Except.ok C → NoZeros C)
    ∧ (∀ C, A.multiply B = Except.ok C → NoZeros C)
    ∧ NoZeros (A.multiply_scalar s) :=
  ⟨NoZeros_set_element hA r c v,
    fun _ h => NoZeros_add h,
    fun _ h => NoZeros_subtract h,
    fun _ h => NoZeros_multiply h,
    NoZeros_multiply_scalar A s⟩

theorem claim1_amended_witness :
    NoZeros ⟨2, 2, [((0, 0), 2)]⟩
    ∧ (NoZeros ((⟨2, 2, [((0, 0), 2)]⟩ : SparseMatrix).set_element 0 1 3)
      ∧ (∀ C, (⟨2, 2, [((0, 0), 2)]⟩ : SparseMatrix).add ⟨2, 2, [((1, 1), 4)]⟩
          = Except.ok C → NoZeros C)
      ∧ (∀ C, (⟨2, 2, [((0, 0), 2)]⟩ : SparseMatrix).subtract ⟨2, 2, [((1, 1), 4)]⟩
          = Except.ok C → NoZeros C)
      ∧ (∀ C, (⟨2, 2, [((0, 0), 2)]⟩ : SparseMatrix).multiply ⟨2, 2, [((1, 1), 4)]⟩
          = Except.ok C → NoZeros C)
      ∧ NoZeros ((⟨2, 2, [((0, 0), 2)]⟩ : SparseMatrix).multiply_scalar 5)) :=
  ⟨by decide, claim1_amended ⟨2, 2, [((0, 0), 2)]⟩ ⟨2, 2, [((1, 1), 4)]⟩ 0 1 3 5 (by decide)⟩

/-- C3: on dimension-matched operands, `add` (resp. `subtract`) succeeds
with the same dimensions, and every cell of the result is the sum
(resp. difference) of the operands' `get_element` values. -/
theorem claim3_add_subtract (A B : SparseMatrix)
    (hr : A.rows = B.rows) (hc : A.cols = B.cols) :
    (∃ C, A.add B = Except.ok C ∧ C.rows = A.rows ∧ C.cols = A.cols ∧
      ∀ r c, C.get_element r c = A.get_element r c + B.get_element r c)
    ∧ (∃ C, A.subtract B = Except.ok C ∧ C.rows = A.rows ∧ C.cols = A.cols ∧
      ∀ r c, C.get_element r c = A.get_element r c - B.get_element r c) :=
  ⟨add_spec A B hr hc, subtract_spec A B hr hc⟩

theorem claim3_witness :
    ((2 : Int) = 2 ∧ (2 : Int) = 2)
    ∧ ((∃ C, (⟨2, 2, [((0, 0), 1), ((1, 1), 2)]⟩ : SparseMatrix).add
          ⟨2, 2, [((0, 0), 3), ((0, 1), 4)]⟩ = Except.ok C ∧ C.rows = 2 ∧ C.cols = 2 ∧
          ∀ r c, C.get_element r c =
            (⟨2, 2, [((0, 0), 1), ((1, 1), 2)]⟩ : SparseMatrix).get_element r c
              + (⟨2, 2, [((0, 0), 3), ((0, 1), 4)]⟩ : SparseMatrix).get_element r c)
      ∧ (∃ C, (⟨2, 2, [((0, 0), 1), ((1, 1), 2)]⟩ : SparseMatrix).subtract
          ⟨2, 2, [((0, 0), 3), ((0, 1), 4)]⟩ = Except.ok C ∧ C.rows = 2 ∧ C.cols = 2 ∧
          ∀ r c, C.get_element r c =
            (⟨2, 2, [((0, 0), 1), ((1, 1), 2)]⟩ : SparseMatrix).get_element r c
              - (⟨2, 2, [((0, 0), 3), ((0, 1), 4)]⟩ : SparseMatrix).get_element r c)) :=
  ⟨⟨rfl, rfl⟩, claim3_add_subtract ⟨2, 2, [((0, 0), 1), ((1, 1), 2)]⟩
    ⟨2, 2, [((0, 0), 3), ((0, 1), 4)]⟩ rfl rfl⟩

/-- C5: `add`/`subtract` fail with the dimension-mismatch error exactly
when the dimensions differ, `multiply` exactly when the inner dimensions
differ; the error type has a single constructor, so no other failure is
possible. -/
theorem claim5_dimension_mismatch (A B : SparseMatrix) :
    ((∃ C, A.add B = Except.ok C) ↔ (A.rows = B.rows ∧ A.cols = B.cols))
    ∧ (A.add B = Except.error OpError.dimensionMismatch
        ↔ ¬(A.rows = B.rows ∧ A.cols = B.cols))
    ∧ ((∃ C, A.subtract B = Except.ok C) ↔ (A.rows = B.rows ∧ A.cols = B.cols))
    ∧ (A.subtract B = Except.error OpError.dimensionMismatch
        ↔ ¬(A.rows = B.rows ∧ A.cols = B.cols))
    ∧ ((∃ C, A.multiply B = Except.ok C) ↔ A.cols = B.rows)
    ∧ (A.multiply B = Except.error OpError.dimensionMismatch ↔ ¬(A.cols = B.rows)) := by
  refine ⟨?_, ?_, ?_, ?_, ?_, ?_⟩
  · unfold SparseMatrix.add
    by_cases hd : A.rows ≠ B.rows ∨ A.cols ≠ B.cols
    · rw [if_pos hd]
      constructor
      · rintro ⟨C, hC⟩
        cases hC
      · intro hcon
        tauto
    · rw [if_neg hd]
      push_neg at hd
      exact ⟨fun _ => hd, fun _ => ⟨_, rfl⟩⟩
  · unfold SparseMatrix.add
    by_cases hd : A.rows ≠ B.rows ∨ A.cols ≠ B.cols
    · rw [if_pos hd]
      exact ⟨fun _ => (by tauto), fun _ => rfl⟩
    · rw [if_neg hd]
      push_neg at hd
      exact ⟨fun hC => (nomatch hC), fun hcon => absurd hd hcon⟩
  · unfold SparseMatrix.subtract
    by_cases hd : A.rows ≠ B.rows ∨ A.cols ≠ B.cols
    · rw [if_pos hd]
      constructor
      · rintro ⟨C, hC⟩
        cases hC
      · intro hcon
        tauto
    · rw [if_neg hd]
      push_neg at hd
      exact ⟨fun _ => hd, fun _ => ⟨_, rfl⟩⟩
  · unfold SparseMatrix.subtract
    by_cases hd : A.rows ≠ B.rows ∨ A.cols ≠ B.cols
    · rw [if_pos hd]
      exact ⟨fun _ => (by tauto), fun _ => rfl⟩
    · rw [if_neg hd]
      push_neg at hd
      exact ⟨fun hC => (nomatch hC), fun hcon => absurd hd hcon⟩
  · unfold SparseMatrix.multiply
    by_cases hd : A.cols ≠ B.rows
    · rw [if_pos hd]
      constructor
      · rintro ⟨C, hC⟩
        cases hC
      · intro hcon
        exact absurd hcon hd
    · rw [if_neg hd]
      push_neg at hd
      exact ⟨fun _ => hd, fun _ => ⟨_, rfl⟩⟩
  · unfold SparseMatrix.multiply
    by_cases hd : A.cols ≠ B.rows
    · rw [if_pos hd]
      exact ⟨fun _ => hd, fun _ => rfl⟩
    · rw [if_neg hd]
      push_neg at hd
      exact ⟨fun hC => (nomatch hC), fun hcon => absurd hd hcon⟩

/-! Lemmas about the text primitives. -/

theorem splitCh_cons (sep c : Char) (rest : List Char) :
    splitCh sep (c :: rest) =
      if c = sep then [] :: splitCh sep rest
      else
        match splitCh sep rest with
        | h :: t => (c :: h) :: t
        | [] => [[c]] := rfl

theorem splitCh_no_sep {sep : Char} : ∀ {l : List Char}, sep ∉ l → splitCh sep l = [l] := by
  intro l
  induction l with
  | nil => intro _; rfl
  | cons c rest ih =>
    intro h
    have hc : ¬ c = sep := fun hc => h (hc ▸ List.mem_cons_self c rest)
    rw [splitCh_cons, if_neg hc, ih (fun hm => h (List.mem_cons.mpr (Or.inr hm)))]

theorem splitCh_append {sep : Char} :
    ∀ {a : List Char}, sep ∉ a → ∀ b, splitCh sep (a ++ sep :: b) = a :: splitCh sep b := by
  intro a
  induction a with
  | nil =>
    intro _ b
    simp [splitCh_cons]
  | cons c a ih =>
    intro h b
    have hc : ¬ c = sep := fun hc => h (hc ▸ List.mem_cons_self c a)
    rw [List.cons_append, splitCh_cons, if_neg hc,
      ih (fun hm => h (List.mem_cons.mpr (Or.inr hm))) b]

theorem dropWhile_append_cons (p : Char → Bool) :
    ∀ (a : List Char) (c : Char) (b : List Char), p c = false →
      List.dropWhile p (a ++ c :: b) = List.dropWhile p a ++ c :: b := by
  intro a
  induction a with
  | nil =>
    intro c b hc
    simp [List.dropWhile_cons, hc]
  | cons d a ih =>
    intro c b hc
    rw [List.cons_append, List.dropWhile_cons, List.dropWhile_cons]
    by_cases hd : p d = true
    · rw [if_pos hd, if_pos hd, ih c b hc]
    · rw [Bool.not_eq_true] at hd
      rw [if_neg (by rw [hd]; simp), if_neg (by rw [hd]; simp), List.cons_append]

theorem dropWhile_eq_self_of_head {p : Char → Bool} {l : List Char}
    (h : ∀ c, l.head? = some c → p c = false) : List.dropWhile p l = l := by
  cases l with
  | nil => rfl
  | cons c rest =>
    rw [List.dropWhile_cons, if_neg (by rw [h c rfl]; simp)]

theorem pyStrip_eq_self {l : List Char}
    (h1 : ∀ c, l.head? = some c → isWS c = false)
    (h2 : ∀ c, l.getLast? = some c → isWS c = false) : pyStrip l = l := by
  unfold pyStrip
  rw [dropWhile_eq_self_of_head h1]
  rw [dropWhile_eq_self_of_head (by
    intro c hc
    rw [List.head?_reverse] at hc
    exact h2 c hc)]
  exact List.reverse_reverse l

theorem pyStrip_cons_ws {c : Char} (hc : isWS c = true) (l : List Char) :
    pyStrip (c :: l) = pyStrip l := by
  unfold pyStrip
  rw [List.dropWhile_cons, if_pos hc]

/-! Digits and the int round trip. -/

theorem digitChar_toNat {n : Nat} (h : n < 10) : (digitChar n).toNat = 48 + n := by
  interval_cases n <;> rfl

theorem digitChar_isDigit {n : Nat} (h : n < 10) : (digitChar n).isDigit = true := by
  interval_cases n <;> rfl

theorem natChars_ne_nil (n : Nat) : natChars n ≠ [] := by
  rw [natChars]
  by_cases h : n < 10
  · rw [if_pos h]
    simp
  · rw [if_neg h]
    simp

theorem natChars_all_digit : ∀ n, ∀ c ∈ natChars n, c.isDigit = true := by
  intro n
  induction n using Nat.strong_induction_on with
  | _ n ih =>
    intro c hc
    rw [natChars] at hc
    by_cases h : n < 10
    · rw [if_pos h] at hc
      rw [List.mem_singleton.mp hc]
      exact digitChar_isDigit h
    · rw [if_neg h] at hc
      rcases List.mem_append.mp hc with hm | hm
      · exact ih (n / 10) (Nat.div_lt_self (by omega) (by omega)) c hm
      · rw [List.mem_singleton.mp hm]
        exact digitChar_isDigit (Nat.mod_lt n (by omega))

theorem digitsVal_append_digit (l : List Char) (c : Char) :
    digitsVal (l ++ [c]) = digitsVal l * 10 + (c.toNat - 48) := by
  unfold digitsVal
  rw [List.foldl_append]
  rfl

theorem digitsVal_natChars : ∀ n, digitsVal (natChars n) = n := by
  intro n
  induction n using Nat.strong_induction_on with
  | _ n ih =>
    rw [natChars]
    by_cases h : n < 10
    · rw [if_pos h]
      show digitsVal [digitChar n] = n
      unfold digitsVal
      simp [digitChar_toNat h]
    · rw [if_neg h]
      rw [digitsVal_append_digit, ih (n / 10) (Nat.div_lt_self (by omega) (by omega)),
        digitChar_toNat (Nat.mod_lt n (by omega))]
      omega

theorem mem_intChars {c : Char} {i : Int} (h : c ∈ intChars i) :
    c.isDigit = true ∨ c = '-' := by
  unfold intChars at h
  by_cases hi : i < 0
  · rw [if_pos hi] at h
    rcases List.mem_cons.mp h with h | h
    · exact Or.inr h
    · exact Or.inl (natChars_all_digit _ c h)
  · rw [if_neg hi] at h
    exact Or.inl (natChars_all_digit _ c h)

theorem not_mem_intChars {c : Char} (hdig : c.isDigit = false) (hne : c ≠ '-')
    (i : Int) : c ∉ intChars i := by
  intro h
  rcases mem_intChars h with h | h
  · rw [hdig] at h
    cases h
  · exact hne h

theorem isWS_eq_false_of_isDigit {c : Char} (h : c.isDigit = true) : isWS c = false := by
  by_contra hc
  rw [Bool.not_eq_false] at hc
  unfold isWS at hc
  simp only [Bool.or_eq_true, beq_iff_eq] at hc
  rcases hc with ((((h1 | h1) | h1) | h1) | h1) | h1 <;> subst h1 <;>
    exact absurd h (by decide)

theorem isParen_eq_false_of_isDigit {c : Char} (h : c.isDigit = true) :
    isParen c = false := by
  by_contra hc
  rw [Bool.not_eq_false] at hc
  unfold isParen at hc
  simp only [Bool.or_eq_true, beq_iff_eq] at hc
  rcases hc with h1 | h1 <;> subst h1 <;> exact absurd h (by decide)

theorem intChars_ne_nil (i : Int) : intChars i ≠ [] := by
  unfold intChars
  by_cases hi : i < 0
  · rw [if_pos hi]
    simp
  · rw [if_neg hi]
    exact natChars_ne_nil _

theorem head_intChars {c : Char} {i : Int} (h : (intChars i).head? = some c) :
    c.isDigit = true ∨ c = '-' :=
  mem_intChars (List.mem_of_mem_head? h)

theorem isParen_eq_false_of_mem_intChars {c : Char} {i : Int} (h : c ∈ intChars i) :
    isParen c = false := by
  rcases mem_intChars h with hd | hd
  · exact isParen_eq_false_of_isDigit hd
  · subst hd
    rfl

theorem isWS_eq_false_of_mem_intChars {c : Char} {i : Int} (h : c ∈ intChars i) :
    isWS c = false := by
  rcases mem_intChars h with hd | hd
  · exact isWS_eq_false_of_isDigit hd
  · subst hd
    rfl

theorem pyStrip_intChars (i : Int) : pyStrip (intChars i) = intChars i := by
  apply pyStrip_eq_self
  · intro c hc
    exact isWS_eq_false_of_mem_intChars (List.mem_of_mem_head? hc)
  · intro c hc
    exact isWS_eq_false_of_mem_intChars (List.mem_of_mem_getLast? hc)

theorem pyIntCore_cons (c : Char) (rest : List Char) :
    pyIntCore (c :: rest) =
      if c = '-' then
        if rest ≠ [] ∧ rest.all Char.isDigit then some (-(digitsVal rest : Int)) else none
      else if c = '+' then
        if rest ≠ [] ∧ rest.all Char.isDigit then some ((digitsVal rest : Int)) else none
      else if (c :: rest).all Char.isDigit then some ((digitsVal (c :: rest) : Int))
      else none := rfl

theorem pyIntCore_natChars (n : Nat) : pyIntCore (natChars n) = some (n : Int) := by
  obtain ⟨c, rest, hl⟩ := List.exists_cons_of_ne_nil (natChars_ne_nil n)
  have hcd : c.isDigit = true := natChars_all_digit n c (by rw [hl]; exact List.mem_cons_self c rest)
  have hall : (c :: rest).all Char.isDigit = true := by
    rw [List.all_eq_true]
    intro x hx
    exact natChars_all_digit n x (by rw [hl]; exact hx)
  rw [hl]
  rw [pyIntCore_cons]
  rw [if_neg (by intro hc; subst hc; exact absurd hcd (by decide)),
    if_neg (by intro hc; subst hc; exact absurd hcd (by decide)), if_pos hall]
  rw [show digitsVal (c :: rest) = n from by rw [← hl]; exact digitsVal_natChars n]

theorem pyInt_intChars (i : Int) : pyInt (intChars i) = some i := by
  unfold pyInt
  rw [pyStrip_intChars]
  unfold intChars
  by_cases hi : i < 0
  · rw [if_pos hi]
    rw [pyIntCore_cons]
    rw [if_pos rfl, if_pos ⟨natChars_ne_nil _, by
      rw [List.all_eq_true]
      intro x hx
      exact natChars_all_digit _ x hx⟩]
    rw [digitsVal_natChars]
    congr 1
    omega
  · rw [if_neg hi]
    rw [pyIntCore_natChars]
    congr 1
    omega

/-! Multiply as a sum over the inner dimension (C4). -/

theorem dims_mulStep (B res : SparseMatrix) (e : Entry) :
    (mulStep B res e).rows = res.rows ∧ (mulStep B res e).cols = res.cols := by
  unfold mulStep
  have := foldl_preserves (P := fun N => N.rows = res.rows ∧ N.cols = res.cols)
    (fun r j =>
      match dictFind B.matrix (e.1.2, j) with
      | some w => r.set_element e.1.1 j (r.get_element e.1.1 j + e.2 * w)
      | none => r)
    (fun M j hM => by
      rcases hB : dictFind B.matrix (e.1.2, j) with _ | w
      · simpa [hB] using hM
      · simp only [hB]
        exact ⟨(rows_set_element _ _ _ _).trans hM.1, (cols_set_element _ _ _ _).trans hM.2⟩)
    (intRange B.cols) res ⟨rfl, rfl⟩
  exact this

/-- Turning the per-entry contribution list into the textbook sum over the
inner index range: needs unique keys and in-range column indices for the
left operand's entries. -/
theorem listsum_eq_rangesum (B : SparseMatrix) (i j : Int) (n : Int) :
    ∀ L : List Entry, (keysOf L).Nodup →
      (∀ e ∈ L, 0 ≤ e.1.2 ∧ e.1.2 < n) →
      (L.map (fun e => if i = e.1.1 then e.2 * B.get_element e.1.2 j else 0)).sum =
        ∑ k ∈ Finset.range n.toNat,
          (dictFind L (i, (k : Int))).getD 0 * B.get_element (k : Int) j := by
  intro L
  induction L with
  | nil =>
    intro _ _
    simp [dictFind]
  | cons e rest ih =>
    intro hnd hbnd
    simp only [keysOf, List.map_cons, List.nodup_cons] at hnd
    have hbe := hbnd e (List.mem_cons_self e rest)
    have htc : ((e.1.2.toNat : Nat) : Int) = e.1.2 := Int.toNat_of_nonneg hbe.1
    simp only [List.map_cons, List.sum_cons]
    rw [ih hnd.2 (fun f hf => hbnd f (List.mem_cons.mpr (Or.inr hf)))]
    by_cases hi : i = e.1.1
    · have hsplit : ∀ k ∈ Finset.range n.toNat,
          (dictFind (e :: rest) (i, (k : Int))).getD 0 * B.get_element (k : Int) j =
            (if k = e.1.2.toNat then e.2 * B.get_element (k : Int) j else 0) +
              (dictFind rest (i, (k : Int))).getD 0 * B.get_element (k : Int) j := by
        intro k _
        by_cases hk : k = e.1.2.toNat
        · subst hk
          have hkey : e.1 = (i, ((e.1.2.toNat : Nat) : Int)) := by
            rw [htc, hi]
          have hfind : dictFind (e :: rest) (i, ((e.1.2.toNat : Nat) : Int)) = some e.2 := by
            rw [dictFind_cons, if_pos hkey]
          have hrest : dictFind rest (i, ((e.1.2.toNat : Nat) : Int)) = none := by
            rw [dictFind_eq_none_iff, ← hkey]
            exact hnd.1
          rw [hfind, hrest]
          simp
        · have hkne : e.1 ≠ (i, (k : Int)) := by
            intro hc
            apply hk
            have h2 : e.1.2 = (k : Int) := congrArg Prod.snd hc
            omega
          rw [dictFind_cons, if_neg hkne, if_neg hk, zero_add]
      rw [Finset.sum_congr rfl hsplit, Finset.sum_add_distrib]
      have hmem : e.1.2.toNat ∈ Finset.range n.toNat := by
        rw [Finset.mem_range]
        omega
      rw [Finset.sum_ite_eq' (Finset.range n.toNat) e.1.2.toNat
        (fun k => e.2 * B.get_element (k : Int) j), if_pos hmem, if_pos hi, htc]
    · rw [if_neg hi]
      have hcongr : ∀ k ∈ Finset.range n.toNat,
          (dictFind (e :: rest) (i, (k : Int))).getD 0 * B.get_element (k : Int) j =
            (dictFind rest (i, (k : Int))).getD 0 * B.get_element (k : Int) j := by
        intro k _
        have hkne : e.1 ≠ (i, (k : Int)) := by
          intro hc
          exact hi (congrArg Prod.fst hc).symm
        rw [dictFind_cons, if_neg hkne]
      rw [Finset.sum_congr rfl hcongr, zero_add]

/-- C4: with matching inner dimensions and in-range stored keys on both
sides, multiply succeeds with dimensions `A.rows × B.cols`, and every
cell `(i, j)` of the result is the sum over the inner index `k` of
`A[i, k] * B[k, j]`. -/
theorem claim4_multiply (A B : SparseMatrix) (hd : A.cols = B.rows)
    (hWFA : A.WF) (hA : InRange A) (hB : InRange B) :
    ∃ C, A.multiply B = Except.ok C ∧ C.rows = A.rows ∧ C.cols = B.cols ∧
      ∀ i j, C.get_element i j =
        ∑ k ∈ Finset.range A.cols.toNat,
          A.get_element i (k : Int) * B.get_element (k : Int) j := by
  refine ⟨A.matrix.foldl (mulStep B) ⟨A.rows, B.cols, []⟩, ?_, ?_, ?_, ?_⟩
  · unfold SparseMatrix.multiply
    rw [if_neg (by simp [hd])]
  · exact (foldl_preserves (P := fun N => N.rows = A.rows ∧ N.cols = B.cols)
      (mulStep B) (fun M e hM => ⟨(dims_mulStep B M e).1.trans hM.1,
        (dims_mulStep B M e).2.trans hM.2⟩) A.matrix ⟨A.rows, B.cols, []⟩ ⟨rfl, rfl⟩).1
  · exact (foldl_preserves (P := fun N => N.rows = A.rows ∧ N.cols = B.cols)
      (mulStep B) (fun M e hM => ⟨(dims_mulStep B M e).1.trans hM.1,
        (dims_mulStep B M e).2.trans hM.2⟩) A.matrix ⟨A.rows, B.cols, []⟩ ⟨rfl, rfl⟩).2
  · intro i j
    rw [get_foldl_mulStep B A.matrix ⟨A.rows, B.cols, []⟩ (WF_empty _ _) i j, get_empty,
      zero_add]
    by_cases hj : j ∈ intRange B.cols
    · have hmapeq : (A.matrix.map (fun e =>
          if i = e.1.1 ∧ j ∈ intRange B.cols then e.2 * B.get_element e.1.2 j else 0)) =
          (A.matrix.map (fun e =>
            if i = e.1.1 then e.2 * B.get_element e.1.2 j else 0)) := by
        apply List.map_congr_left
        intro e _
        by_cases hi : i = e.1.1
        · rw [if_pos ⟨hi, hj⟩, if_pos hi]
        · rw [if_neg (by rintro ⟨h1, _⟩; exact hi h1), if_neg hi]
      rw [hmapeq]
      exact listsum_eq_rangesum B i j A.cols A.matrix hWFA
        (fun e he => ⟨(hA e he).2.2.1, (hA e he).2.2.2⟩)
    · have hzero : (A.matrix.map (fun e =>
          if i = e.1.1 ∧ j ∈ intRange B.cols then e.2 * B.get_element e.1.2 j else 0)).sum
          = 0 := by
        apply List.sum_eq_zero
        intro x hx
        rcases List.mem_map.mp hx with ⟨e, _, hxe⟩
        rw [← hxe, if_neg (by rintro ⟨_, h2⟩; exact hj h2)]
      rw [hzero]
      symm
      apply Finset.sum_eq_zero
      intro k _
      have hout : ((k : Int), j) ∉ keysOf B.matrix := by
        intro hc
        rcases mem_keysOf.mp hc with ⟨v, hv⟩
        have := hB ((((k : Int), j)), v) hv
        rw [mem_intRange] at hj
        push_neg at hj
        simp only at this
        rcases this with ⟨_, _, hj0, hjc⟩
        exact absurd hjc (by intro hcc; exact absurd (hj hj0) (by omega))
      rw [get_eq_zero_of_not_mem hout, mul_zero]

theorem claim4_witness :
    ((2 : Int) = 2
      ∧ (⟨2, 2, [((0, 0), 1), ((1, 1), 2)]⟩ : SparseMatrix).WF
      ∧ InRange ⟨2, 2, [((0, 0), 1), ((1, 1), 2)]⟩
      ∧ InRange ⟨2, 2, [((0, 0), 3), ((0, 1), 4)]⟩)
    ∧ (∃ C, (⟨2, 2, [((0, 0), 1), ((1, 1), 2)]⟩ : SparseMatrix).multiply
          ⟨2, 2, [((0, 0), 3), ((0, 1), 4)]⟩ = Except.ok C
        ∧ C.rows = 2 ∧ C.cols = 2
        ∧ ∀ i j, C.get_element i j =
            ∑ k ∈ Finset.range (2 : Int).toNat,
              (⟨2, 2, [((0, 0), 1), ((1, 1), 2)]⟩ : SparseMatrix).get_element i (k : Int)
                * (⟨2, 2, [((0, 0), 3), ((0, 1), 4)]⟩ : SparseMatrix).get_element (k : Int) j) :=
  ⟨⟨rfl, by decide, by decide, by decide⟩,
    claim4_multiply ⟨2, 2, [((0, 0), 1), ((1, 1), 2)]⟩ ⟨2, 2, [((0, 0), 3), ((0, 1), 4)]⟩
      rfl (by decide) (by decide) (by decide)⟩

/-- C8: `multiply_scalar` keeps the dimensions, scales every cell, and for
scalar 0 stores nothing at all. -/
theorem claim8_multiply_scalar (M : SparseMatrix) (s : Int) (hWF : M.WF) :
    (M.multiply_scalar s).rows = M.rows
    ∧ (M.multiply_scalar s).cols = M.cols
    ∧ (∀ r c, (M.multiply_scalar s).get_element r c = s * M.get_element r c)
    ∧ (s = 0 → (M.multiply_scalar s).matrix = []) := by
  refine ⟨?_, ?_, ?_, ?_⟩
  · exact (dims_foldl_set
      (fun (N : SparseMatrix) (e : Entry) => N.set_element e.1.1 e.1.2 (e.2 * s))
      (fun N e => ⟨rows_set_element N e.1.1 e.1.2 _, cols_set_element N e.1.1 e.1.2 _⟩) _ _).1
  · exact (dims_foldl_set
      (fun (N : SparseMatrix) (e : Entry) => N.set_element e.1.1 e.1.2 (e.2 * s))
      (fun N e => ⟨rows_set_element N e.1.1 e.1.2 _, cols_set_element N e.1.1 e.1.2 _⟩) _ _).2
  · intro r c
    have hg := get_foldl_set_scalar s M.matrix ⟨M.rows, M.cols, []⟩ (WF_empty _ _) hWF r c
    refine hg.trans ?_
    by_cases hmem : (r, c) ∈ keysOf M.matrix
    · rw [if_pos hmem]
      unfold SparseMatrix.get_element
      ring
    · rw [if_neg hmem, get_empty, get_eq_zero_of_not_mem hmem, mul_zero]
  · intro hs
    subst hs
    unfold SparseMatrix.multiply_scalar
    apply foldl_preserves (P := fun N => N.matrix = [])
    · intro N e h
      simp [SparseMatrix.set_element, h, dictFind]
    · rfl

theorem claim8_witness :
    (⟨2, 3, [((0, 0), 2), ((1, 2), -7)]⟩ : SparseMatrix).WF
    ∧ (((⟨2, 3, [((0, 0), 2), ((1, 2), -7)]⟩ : SparseMatrix).multiply_scalar 0).rows = 2
      ∧ ((⟨2, 3, [((0, 0), 2), ((1, 2), -7)]⟩ : SparseMatrix).multiply_scalar 0).cols = 3
      ∧ (∀ r c, ((⟨2, 3, [((0, 0), 2), ((1, 2), -7)]⟩ : SparseMatrix).multiply_scalar 0).get_element r c
          = 0 * (⟨2, 3, [((0, 0), 2), ((1, 2), -7)]⟩ : SparseMatrix).get_element r c)
      ∧ ((0 : Int) = 0 →
          ((⟨2, 3, [((0, 0), 2), ((1, 2), -7)]⟩ : SparseMatrix).multiply_scalar 0).matrix = [])) :=
  ⟨by decide, claim8_multiply_scalar ⟨2, 3, [((0, 0), 2), ((1, 2), -7)]⟩ 0 (by decide)⟩

/-- C9: addition is commutative up to observation: both orders succeed on
dimension-matched operands and agree on dimensions and every cell. -/
theorem claim9_add_comm (A B : SparseMatrix)
    (hr : A.rows = B.rows) (hc : A.cols = B.cols) :
    ∃ C D, A.add B = Except.ok C ∧ B.add A = Except.ok D
      ∧ C.rows = D.rows ∧ C.cols = D.cols
      ∧ ∀ r c, C.get_element r c = D.get_element r c := by
  obtain ⟨C, hC, hCr, hCc, hCg⟩ := add_spec A B hr hc
  obtain ⟨D, hD, hDr, hDc, hDg⟩ := add_spec B A hr.symm hc.symm
  refine ⟨C, D, hC, hD, ?_, ?_, ?_⟩
  · rw [hCr, hDr, hr]
  · rw [hCc, hDc, hc]
  · intro r c
    rw [hCg, hDg]
    ring

/-! The save/load round trip (C2). -/

theorem keysOf_cons (e : Entry) (L : List Entry) : keysOf (e :: L) = e.1 :: keysOf L := rfl

theorem loadLines_cons (M : SparseMatrix) (l : List Char) (ls : List (List Char)) :
    loadLines M (l :: ls) =
      if goodLine l then
        match parseTriple l with
        | some (r, c, v) => loadLines { M with matrix := dictInsert M.matrix (r, c) v } ls
        | none => (M, some .badTriple)
      else (M, some .wrongFormat) := rfl

theorem splitCh_join (sep : Char) :
    ∀ ls : List (List Char), (∀ l ∈ ls, sep ∉ l) →
      splitCh sep (ls.foldr (fun l acc => l ++ sep :: acc) []) = ls ++ [[]] := by
  intro ls
  induction ls with
  | nil => intro _; rfl
  | cons l rest ih =>
    intro h
    rw [List.foldr_cons, splitCh_append (h l (List.mem_cons_self l rest)),
      ih (fun x hx => h x (List.mem_cons.mpr (Or.inr hx)))]
    rfl

theorem insertEntry_perm (e : Entry) : ∀ l, (insertEntry e l).Perm (e :: l) := by
  intro l
  induction l with
  | nil => exact List.Perm.refl _
  | cons f rest ih =>
    unfold insertEntry
    by_cases h : entryLE e f = true
    · rw [if_pos h]
    · rw [if_neg h]
      exact (ih.cons f).trans (List.Perm.swap e f rest)

theorem sortEntries_perm : ∀ l : List Entry, (sortEntries l).Perm l := by
  intro l
  induction l with
  | nil => exact List.Perm.refl _
  | cons e rest ih =>
    unfold sortEntries
    exact (insertEntry_perm e (sortEntries rest)).trans (ih.cons e)

theorem dictFind_perm {L L' : List Entry} (h : L.Perm L') (hnd : (keysOf L).Nodup)
    (k : Key) : dictFind L k = dictFind L' k := by
  have hnd' : (keysOf L').Nodup := ((h.map Prod.fst).nodup_iff).mp hnd
  rcases hf : dictFind L k with _ | v
  · symm
    rw [dictFind_eq_none_iff] at hf ⊢
    intro hc
    exact hf (((h.map Prod.fst).mem_iff).mpr hc)
  · symm
    rw [dictFind_eq_some_iff hnd']
    rw [dictFind_eq_some_iff hnd] at hf
    exact h.mem_iff.mp hf

theorem dictFind_foldl_insert :
    ∀ (L base : List Entry), (keysOf L).Nodup → ∀ k,
      dictFind (L.foldl (fun d e => dictInsert d e.1 e.2) base) k =
        if k ∈ keysOf L then dictFind L k else dictFind base k := by
  intro L
  induction L with
  | nil =>
    intro base _ k
    simp [keysOf]
  | cons e rest ih =>
    intro base hnd k
    rw [keysOf_cons, List.nodup_cons] at hnd
    simp only [List.foldl_cons]
    rw [ih (dictInsert base e.1 e.2) hnd.2 k]
    by_cases hm : k ∈ keysOf rest
    · have hek : ¬ e.1 = k := fun hc => hnd.1 (hc ▸ hm)
      rw [if_pos hm, if_pos (by rw [keysOf_cons]; exact List.mem_cons.mpr (Or.inr hm)),
        dictFind_cons, if_neg hek]
    · rw [if_neg hm, dictFind_insert]
      by_cases hk : e.1 = k
      · rw [if_pos hk, if_pos (by rw [keysOf_cons]; exact List.mem_cons.mpr (Or.inl hk.symm)),
          dictFind_cons, if_pos hk]
      · rw [if_neg hk, if_neg (by
          rw [keysOf_cons]
          intro hc
          rcases List.mem_cons.mp hc with hc | hc
          · exact hk hc.symm
          · exact hm hc)]

/-- Characters appearing in an entry line. -/
theorem mem_entryLine {c : Char} {e : Entry} (h : c ∈ entryLine e) :
    c = '(' ∨ c = ')' ∨ c = ',' ∨ c = ' ' ∨
      c ∈ intChars e.1.1 ∨ c ∈ intChars e.1.2 ∨ c ∈ intChars e.2 := by
  unfold entryLine at h
  simp only [List.mem_cons, List.mem_append, List.mem_singleton] at h
  tauto

theorem nl_not_mem_intChars (i : Int) : '\n' ∉ intChars i :=
  not_mem_intChars (by decide) (by decide) i

theorem nl_not_mem_entryLine (e : Entry) : '\n' ∉ entryLine e := by
  intro h
  rcases mem_entryLine h with h | h | h | h | h | h | h
  · cases h
  · cases h
  · cases h
  · cases h
  · exact nl_not_mem_intChars _ h
  · exact nl_not_mem_intChars _ h
  · exact nl_not_mem_intChars _ h

theorem entryLine_eq_wrap (e : Entry) :
    entryLine e = '(' :: ((intChars e.1.1 ++ ',' :: ' ' ::
      (intChars e.1.2 ++ ',' :: ' ' :: intChars e.2)) ++ [')']) := by
  unfold entryLine
  simp [List.append_assoc]

theorem pyStrip_entryLine (e : Entry) : pyStrip (entryLine e) = entryLine e := by
  apply pyStrip_eq_self
  · intro c hc
    unfold entryLine at hc
    rw [Option.some_inj.symm.mp rfl] at hc
    cases hc
    rfl
  · intro c hc
    rw [entryLine_eq_wrap] at hc
    rw [show ('(' :: ((intChars e.1.1 ++ ',' :: ' ' ::
        (intChars e.1.2 ++ ',' :: ' ' :: intChars e.2)) ++ [')']))
      = (('(' :: (intChars e.1.1 ++ ',' :: ' ' ::
        (intChars e.1.2 ++ ',' :: ' ' :: intChars e.2))) ++ [')']) from by
          simp [List.cons_append]] at hc
    rw [List.getLast?_concat] at hc
    cases Option.some_inj.mp hc
    rfl

theorem pyStrip_header (c0 c1 c2 c3 : Char) (i : Int)
    (h0 : isWS c0 = false) :
    pyStrip (c0 :: c1 :: c2 :: c3 :: '=' :: intChars i)
      = c0 :: c1 :: c2 :: c3 :: '=' :: intChars i := by
  apply pyStrip_eq_self
  · intro c hc
    cases Option.some_inj.mp hc
    exact h0
  · intro c hc
    rw [show (c0 :: c1 :: c2 :: c3 :: '=' :: intChars i)
        = ([c0, c1, c2, c3, '='] ++ intChars i) from rfl] at hc
    rw [List.getLast?_append_of_ne_nil _ (intChars_ne_nil i)] at hc
    exact isWS_eq_false_of_mem_intChars (List.mem_of_mem_getLast? hc)

theorem headerValue_header (a : List Char) (ha : '=' ∉ a) (i : Int) :
    headerValue (a ++ '=' :: intChars i) = Except.ok i := by
  have h1 : splitCh '=' (a ++ '=' :: intChars i) = a :: [intChars i] := by
    rw [splitCh_append ha, splitCh_no_sep (not_mem_intChars (by decide) (by decide) i)]
  unfold headerValue
  rw [h1]
  show (match pyInt (pyStrip (intChars i)) with
    | some n => Except.ok n
    | none => Except.error LoadError.headerInt) = Except.ok i
  rw [pyStrip_intChars, pyInt_intChars]

theorem stripParens_wrap (Y : List Char) (hY : Y ≠ [])
    (h1 : ∀ c, Y.head? = some c → isParen c = false)
    (h2 : ∀ c, Y.getLast? = some c → isParen c = false) :
    stripParens ('(' :: (Y ++ [')'])) = Y := by
  unfold stripParens
  rw [List.dropWhile_cons, if_pos (show isParen '(' = true from rfl)]
  rw [dropWhile_eq_self_of_head (l := Y ++ [')']) (by
    intro c hc
    rw [List.head?_append_of_ne_nil _ hY] at hc
    exact h1 c hc)]
  rw [show (Y ++ [')']).reverse = ')' :: Y.reverse from by simp]
  rw [List.dropWhile_cons, if_pos (show isParen ')' = true from rfl)]
  rw [dropWhile_eq_self_of_head (l := Y.reverse) (by
    intro c hc
    rw [List.head?_reverse] at hc
    exact h2 c hc)]
  exact List.reverse_reverse Y

theorem goodLine_entryLine (e : Entry) : goodLine (entryLine e) = true := by
  unfold goodLine
  rw [Bool.and_eq_true, decide_eq_true_iff, decide_eq_true_iff]
  constructor
  · rfl
  · rw [entryLine_eq_wrap e, show ('(' :: ((intChars e.1.1 ++ ',' :: ' ' ::
        (intChars e.1.2 ++ ',' :: ' ' :: intChars e.2)) ++ [')']))
      = (('(' :: (intChars e.1.1 ++ ',' :: ' ' ::
        (intChars e.1.2 ++ ',' :: ' ' :: intChars e.2))) ++ [')']) from by
          simp [List.cons_append]]
    exact List.getLast?_concat _

theorem pyInt_space_intChars (x : Int) : pyInt (' ' :: intChars x) = some x := by
  unfold pyInt
  rw [pyStrip_cons_ws (show isWS ' ' = true from rfl)]
  have h := pyInt_intChars x
  unfold pyInt at h
  exact h

theorem parseTriple_entryLine (e : Entry) :
    parseTriple (entryLine e) = some (e.1.1, e.1.2, e.2) := by
  have hY : intChars e.1.1 ++ ',' :: ' ' :: (intChars e.1.2 ++ ',' :: ' ' :: intChars e.2)
      ≠ [] := by
    intro hc
    exact intChars_ne_nil e.1.1 (List.append_eq_nil.mp hc).1
  have hstrip : stripParens (entryLine e) =
      intChars e.1.1 ++ ',' :: ' ' :: (intChars e.1.2 ++ ',' :: ' ' :: intChars e.2) := by
    rw [entryLine_eq_wrap e]
    apply stripParens_wrap _ hY
    · intro c hc
      rw [List.head?_append_of_ne_nil _ (intChars_ne_nil e.1.1)] at hc
      exact isParen_eq_false_of_mem_intChars (List.mem_of_mem_head? hc)
    · intro c hc
      rw [List.getLast?_append_of_ne_nil _ (by simp)] at hc
      rw [show (',' :: ' ' :: (intChars e.1.2 ++ ',' :: ' ' :: intChars e.2))
          = ([',', ' '] ++ (intChars e.1.2 ++ ',' :: ' ' :: intChars e.2)) from rfl] at hc
      rw [List.getLast?_append_of_ne_nil _ (by
        intro hcc
        exact intChars_ne_nil e.1.2 (List.append_eq_nil.mp hcc).1)] at hc
      rw [List.getLast?_append_of_ne_nil _ (by simp)] at hc
      rw [show (',' :: ' ' :: intChars e.2) = ([',', ' '] ++ intChars e.2) from rfl] at hc
      rw [List.getLast?_append_of_ne_nil _ (intChars_ne_nil e.2)] at hc
      exact isParen_eq_false_of_mem_intChars (List.mem_of_mem_getLast? hc)
  have hsplit : splitCh ',' (intChars e.1.1 ++ ',' :: ' ' ::
      (intChars e.1.2 ++ ',' :: ' ' :: intChars e.2)) =
      [intChars e.1.1, ' ' :: intChars e.1.2, ' ' :: intChars e.2] := by
    rw [splitCh_append (not_mem_intChars (by decide) (by decide) e.1.1)]
    rw [show (' ' :: (intChars e.1.2 ++ ',' :: ' ' :: intChars e.2))
        = ((' ' :: intChars e.1.2) ++ ',' :: (' ' :: intChars e.2)) from rfl]
    rw [splitCh_append (by
      intro hc
      rcases List.mem_cons.mp hc with hc | hc
      · cases hc
      · exact not_mem_intChars (by decide) (by decide) e.1.2 hc)]
    rw [splitCh_no_sep (by
      intro hc
      rcases List.mem_cons.mp hc with hc | hc
      · cases hc
      · exact not_mem_intChars (by decide) (by decide) e.2 hc)]
  unfold parseTriple
  rw [hstrip, hsplit]
  show (match pyInt (intChars e.1.1), pyInt (' ' :: intChars e.1.2),
      pyInt (' ' :: intChars e.2) with
    | some x, some y, some z => some (x, y, z)
    | _, _, _ => none) = some (e.1.1, e.1.2, e.2)
  rw [pyInt_intChars, pyInt_space_intChars, pyInt_space_intChars]

theorem loadLines_entryLines :
    ∀ (es : List Entry) (M : SparseMatrix),
      loadLines M (es.map entryLine) =
        ({ M with matrix := es.foldl (fun d e => dictInsert d e.1 e.2) M.matrix }, none) := by
  intro es
  induction es with
  | nil => intro M; rfl
  | cons e rest ih =>
    intro M
    rw [List.map_cons, loadLines_cons, if_pos (goodLine_entryLine e)]
    rw [parseTriple_entryLine e]
    show loadLines { M with matrix := dictInsert M.matrix (e.1.1, e.1.2) e.2 }
      (rest.map entryLine) = _
    rw [ih]
    rfl

theorem saveLines_no_nl (M : SparseMatrix) : ∀ l ∈ saveLines M, '\n' ∉ l := by
  intro l hl
  unfold saveLines at hl
  rcases List.mem_cons.mp hl with hl | hl
  · subst hl
    intro hc
    simp only [List.mem_cons] at hc
    rcases hc with h | h | h | h | h | h
    · cases h
    · cases h
    · cases h
    · cases h
    · cases h
    · exact nl_not_mem_intChars _ h
  · rcases List.mem_cons.mp hl with hl | hl
    · subst hl
      intro hc
      simp only [List.mem_cons] at hc
      rcases hc with h | h | h | h | h | h
      · cases h
      · cases h
      · cases h
      · cases h
      · cases h
      · exact nl_not_mem_intChars _ h
    · rcases List.mem_map.mp hl with ⟨e, _, he⟩
      rw [← he]
      exact nl_not_mem_entryLine e

theorem cleanLines_save (M : SparseMatrix) :
    cleanLines M.save_to_file = saveLines M := by
  unfold cleanLines SparseMatrix.save_to_file
  rw [splitCh_join '\n' (saveLines M) (saveLines_no_nl M)]
  rw [List.map_append]
  rw [List.map_congr_left (l := saveLines M) (g := fun l => l) (by
    intro l hl
    unfold saveLines at hl
    rcases List.mem_cons.mp hl with hl | hl
    · subst hl
      exact pyStrip_header 'r' 'o' 'w' 's' M.rows rfl
    · rcases List.mem_cons.mp hl with hl | hl
      · subst hl
        exact pyStrip_header 'c' 'o' 'l' 's' M.cols rfl
      · rcases List.mem_map.mp hl with ⟨e, _, he⟩
        rw [← he]
        exact pyStrip_entryLine e)]
  rw [List.map_id']
  show List.filter _ (saveLines M ++ [[]]) = saveLines M
  rw [List.filter_append]
  rw [List.filter_eq_self.mpr (by
    intro l hl
    rw [decide_eq_true_iff]
    unfold saveLines at hl
    rcases List.mem_cons.mp hl with hl | hl
    · subst hl
      simp
    · rcases List.mem_cons.mp hl with hl | hl
      · subst hl
        simp
      · rcases List.mem_map.mp hl with ⟨e, _, he⟩
        rw [← he]
        unfold entryLine
        simp)]
  show saveLines M ++ List.filter _ [[]] = saveLines M
  rw [show List.filter (fun l => decide (l ≠ [])) [([] : List Char)] = [] from rfl,
    List.append_nil]

theorem load_from_file_eq (pre : SparseMatrix) (text : List Char)
    (l0 l1 : List Char) (ds : List (List Char))
    (hclean : cleanLines text = l0 :: l1 :: ds)
    (r c : Int) (h0 : headerValue l0 = Except.ok r) (h1 : headerValue l1 = Except.ok c) :
    pre.load_from_file text = loadLines { pre with rows := r, cols := c } ds := by
  unfold SparseMatrix.load_from_file
  simp only [hclean, h0, h1]

/-- C2: parsing the serialized text of any matrix with no stored zero
cells (and the ambient unique-keys dict invariant) reconstructs a matrix
with the same dimensions and the same `get_element` view at every
coordinate. -/
theorem claim2_roundtrip (M : SparseMatrix) (_hNZ : NoZeros M) (hWF : M.WF) :
    ∃ M2, parseFromText (serializeToText M) = Except.ok M2
      ∧ M2.rows = M.rows ∧ M2.cols = M.cols
      ∧ ∀ r c, M2.get_element r c = M.get_element r c := by
  have hload : SparseMatrix.load_from_file ⟨0, 0, []⟩ M.save_to_file =
      (⟨M.rows, M.cols, (sortEntries M.matrix).foldl
        (fun d e => dictInsert d e.1 e.2) []⟩, none) := by
    rw [load_from_file_eq ⟨0, 0, []⟩ M.save_to_file _ _ _
      (by rw [cleanLines_save]; rfl) M.rows M.cols
      (headerValue_header ['r', 'o', 'w', 's'] (by decide) M.rows)
      (headerValue_header ['c', 'o', 'l', 's'] (by decide) M.cols)]
    exact loadLines_entryLines (sortEntries M.matrix) ⟨M.rows, M.cols, []⟩
  refine ⟨⟨M.rows, M.cols, (sortEntries M.matrix).foldl
    (fun d e => dictInsert d e.1 e.2) []⟩, ?_, rfl, rfl, ?_⟩
  · unfold parseFromText parseFromTextL serializeToText
    rw [show (String.mk M.save_to_file).toList = M.save_to_file from rfl, hload]
  · intro r c
    have hperm : (sortEntries M.matrix).Perm M.matrix := sortEntries_perm M.matrix
    have hnds : (keysOf (sortEntries M.matrix)).Nodup :=
      ((hperm.map Prod.fst).nodup_iff).mpr hWF
    unfold SparseMatrix.get_element
    rw [show (⟨M.rows, M.cols, (sortEntries M.matrix).foldl
        (fun d e => dictInsert d e.1 e.2) []⟩ : SparseMatrix).matrix
      = (sortEntries M.matrix).foldl (fun d e => dictInsert d e.1 e.2) [] from rfl]
    rw [dictFind_foldl_insert (sortEntries M.matrix) [] hnds (r, c)]
    by_cases hm : (r, c) ∈ keysOf (sortEntries M.matrix)
    · rw [if_pos hm, dictFind_perm hperm hnds (r, c)]
    · rw [if_neg hm]
      have hnotM : (r, c) ∉ keysOf M.matrix := by
        intro hc
        exact hm (((hperm.map Prod.fst).mem_iff).mpr hc)
      rw [dictFind_eq_none_iff.mpr hnotM]
      rfl

theorem claim2_witness :
    (NoZeros ⟨2, 3, [((1, 2), -7), ((0, 0), 5)]⟩
      ∧ (⟨2, 3, [((1, 2), -7), ((0, 0), 5)]⟩ : SparseMatrix).WF)
    ∧ (∃ M2, parseFromText (serializeToText ⟨2, 3, [((1, 2), -7), ((0, 0), 5)]⟩)
        = Except.ok M2
      ∧ M2.rows = 2 ∧ M2.cols = 3
      ∧ ∀ r c, M2.get_element r c =
          (⟨2, 3, [((1, 2), -7), ((0, 0), 5)]⟩ : SparseMatrix).get_element r c) :=
  ⟨⟨by decide, by decide⟩,
    claim2_roundtrip ⟨2, 3, [((1, 2), -7), ((0, 0), 5)]⟩ (by decide) (by decide)⟩

theorem claim9_witness :
    ((2 : Int) = 2 ∧ (2 : Int) = 2)
    ∧ (∃ C D, (⟨2, 2, [((0, 0), 1), ((1, 1), 2)]⟩ : SparseMatrix).add
          ⟨2, 2, [((0, 0), 3), ((0, 1), 4)]⟩ = Except.ok C
        ∧ (⟨2, 2, [((0, 0), 3), ((0, 1), 4)]⟩ : SparseMatrix).add
          ⟨2, 2, [((0, 0), 1), ((1, 1), 2)]⟩ = Except.ok D
        ∧ C.rows = D.rows ∧ C.cols = D.cols
        ∧ ∀ r c, C.get_element r c = D.get_element r c) :=
  ⟨⟨rfl, rfl⟩, claim9_add_comm ⟨2, 2, [((0, 0), 1), ((1, 1), 2)]⟩
    ⟨2, 2, [((0, 0), 3), ((0, 1), 4)]⟩ rfl rfl⟩

/-! C6: the header IndexError escape. -/

/-- C6: for the input `"rows\ncols=2\n1,2,3"` the claim (and the
function's own docstring) require a FormatError (`ValueError`), since the
data line `1,2,3` lacks parentheses; but `lines[0].split('=')[1]` raises
an `IndexError` first because the first line has no `=`, so the load
fails with an exception kind the docstring does not document. -/
theorem claim6_code_bug :
    parseFromText "rows\ncols=2\n1,2,3" = Except.error LoadError.headerIndex
    ∧ LoadError.isValueError LoadError.headerIndex = false :=
  ⟨rfl, rfl⟩

/-! C7: failed loads leave partial state behind. -/

/-- C7, counterexample: loading the text
`"rows=2\ncols=2\n(0, 0, 5)\nbad"` into a fresh matrix fails at the last
line, yet the receiver has been mutated: rows and cols are set and the
first triple is stored — not equal to its pre-call state. -/
theorem claim7_counterexample :
    SparseMatrix.load_from_file ⟨0, 0, []⟩ "rows=2\ncols=2\n(0, 0, 5)\nbad".toList
      = (⟨2, 2, [((0, 0), 5)]⟩, some LoadError.wrongFormat)
    ∧ (⟨2, 2, [((0, 0), 5)]⟩ : SparseMatrix) ≠ ⟨0, 0, []⟩ :=
  ⟨by decide, by decide⟩

theorem loadLines_error :
    ∀ (ls : List (List Char)) (M post : SparseMatrix) (e : LoadError),
      loadLines M ls = (post, some e) →
      ∃ pfx bad rest, ls = pfx ++ bad :: rest ∧ post = pfx.foldl applyTriple M := by
  intro ls
  induction ls with
  | nil =>
    intro M post e h
    rw [show loadLines M [] = (M, none) from rfl] at h
    exact absurd (congrArg Prod.snd h) (by simp)
  | cons l rest ih =>
    intro M post e h
    rw [loadLines_cons] at h
    by_cases hg : goodLine l = true
    · rw [if_pos hg] at h
      rcases hp : parseTriple l with _ | ⟨r, c, v⟩
      · simp only [hp] at h
        exact ⟨[], l, rest, rfl, (congrArg Prod.fst h).symm⟩
      · simp only [hp] at h
        obtain ⟨pfx, bad, rest2, hls, hpost⟩ := ih _ post e h
        have happ : applyTriple M l = { M with matrix := dictInsert M.matrix (r, c) v } := by
          unfold applyTriple
          rw [hp]
        refine ⟨l :: pfx, bad, rest2, by rw [hls]; rfl, ?_⟩
        rw [hpost, List.foldl_cons, happ]
    · rw [if_neg hg] at h
      exact ⟨[], l, rest, rfl, (congrArg Prod.fst h).symm⟩

/-- C7 (amended): a failed load does not roll the receiver back — it can
leave it partially mutated.  Depending on where the failure occurs, the
receiver is unchanged (empty input or bad first header), has only `rows`
set (bad or missing second header), or has `rows`, `cols` and the triples
of every data line before the failing one applied (bad data line).  Only
the constructor path hides the partial object, because the error
propagates instead of the object being returned. -/
theorem claim7_amended (pre : SparseMatrix) (text : List Char)
    (post : SparseMatrix) (e : LoadError)
    (h : pre.load_from_file text = (post, some e)) :
    post = pre
    ∨ (∃ r, post = { pre with rows := r })
    ∨ (∃ r c pfx bad rest, (cleanLines text).drop 2 = pfx ++ bad :: rest
        ∧ post = pfx.foldl applyTriple { pre with rows := r, cols := c }) := by
  unfold SparseMatrix.load_from_file at h
  rcases hc : cleanLines text with _ | ⟨l0, rest0⟩
  · simp only [hc] at h
    exact Or.inl (congrArg Prod.fst h).symm
  · simp only [hc] at h
    rcases h0 : headerValue l0 with e0 | r
    · simp only [h0] at h
      exact Or.inl (congrArg Prod.fst h).symm
    · simp only [h0] at h
      rcases rest0 with _ | ⟨l1, ds⟩
      · exact Or.inr (Or.inl ⟨r, (congrArg Prod.fst h).symm⟩)
      · rcases h1 : headerValue l1 with e1 | c
        · simp only [h1] at h
          exact Or.inr (Or.inl ⟨r, (congrArg Prod.fst h).symm⟩)
        · simp only [h1] at h
          obtain ⟨pfx, bad, rest, hls, hpost⟩ := loadLines_error ds _ post e h
          exact Or.inr (Or.inr ⟨r, c, pfx, bad, rest, hls, hpost⟩)

theorem claim7_amended_witness :
    SparseMatrix.load_from_file ⟨0, 0, []⟩ "rows=2\ncols=2\n(0, 0, 5)\nbad".toList
      = (⟨2, 2, [((0, 0), 5)]⟩, some LoadError.wrongFormat)
    ∧ ((⟨2, 2, [((0, 0), 5)]⟩ : SparseMatrix) = ⟨0, 0, []⟩
      ∨ (∃ r, (⟨2, 2, [((0, 0), 5)]⟩ : SparseMatrix)
          = { (⟨0, 0, []⟩ : SparseMatrix) with rows := r })
      ∨ (∃ r c pfx bad rest,
          (cleanLines "rows=2\ncols=2\n(0, 0, 5)\nbad".toList).drop 2 = pfx ++ bad :: rest
          ∧ (⟨2, 2, [((0, 0), 5)]⟩ : SparseMatrix)
            = pfx.foldl applyTriple
                { (⟨0, 0, []⟩ : SparseMatrix) with rows := r, cols := c })) :=
  ⟨by decide, claim7_amended ⟨0, 0, []⟩ "rows=2\ncols=2\n(0, 0, 5)\nbad".toList
    ⟨2, 2, [((0, 0), 5)]⟩ LoadError.wrongFormat (by decide)⟩

/-! C10: positional header parsing. -/

/-- C10, counterexample: on input `"a=5=7\ncols=2"` the code sets
rows from `split('=')[1]`, the text between the first and second `=`
(here `5`), and the load succeeds; under the claim's reading — rows set
from whatever follows the first `=`, here `5=7` — the header would not
parse as an int at all. -/
theorem claim10_counterexample :
    parseFromText "a=5=7\ncols=2" = Except.ok ⟨5, 2, []⟩
    ∧ afterFirstEq "a=5=7".toList = some "5=7".toList
    ∧ pyInt "5=7".toList = none :=
  ⟨rfl, rfl, rfl⟩

theorem pyStrip_keyval (k mid j : List Char) :
    pyStrip (k ++ '=' :: (mid ++ '=' :: j)) =
      List.dropWhile isWS k ++ '=' :: (mid ++ '=' ::
        (List.dropWhile isWS j.reverse).reverse) := by
  unfold pyStrip
  rw [dropWhile_append_cons isWS k '=' (mid ++ '=' :: j) rfl]
  rw [show (List.dropWhile isWS k ++ '=' :: (mid ++ '=' :: j)).reverse
      = j.reverse ++ '=' :: (mid.reverse ++ '=' :: (List.dropWhile isWS k).reverse) from by
        simp [List.reverse_append]]
  rw [dropWhile_append_cons isWS j.reverse '='
    (mid.reverse ++ '=' :: (List.dropWhile isWS k).reverse) rfl]
  simp [List.reverse_append]

theorem headerValue_keyval (a b : List Char) (ha : '=' ∉ a) (i : Int) :
    headerValue (a ++ '=' :: (intChars i ++ '=' :: b)) = Except.ok i := by
  unfold headerValue
  rw [splitCh_append ha, splitCh_append (not_mem_intChars (by decide) (by decide) i)]
  show (match pyInt (pyStrip (intChars i)) with
    | some n => Except.ok n
    | none => Except.error LoadError.headerInt) = Except.ok i
  rw [pyStrip_intChars, pyInt_intChars]

/-- C10 (amended): header parsing is purely positional and ignores key
names, and the value is taken from the text between the first and the
second `=` of the line (the whole remainder when there is only one).
For any two lines of the shape `key=<int>=junk` whose key and junk parts
contain no `=` and no newline, the load succeeds, rows is the first
line's value and cols the second line's value, whatever the key texts
say. -/
theorem claim10_amended (k1 j1 k2 j2 : List Char) (n m : Int)
    (hk1 : '=' ∉ k1) (hk1n : '\n' ∉ k1) (hj1n : '\n' ∉ j1)
    (hk2 : '=' ∉ k2) (hk2n : '\n' ∉ k2) (hj2n : '\n' ∉ j2) :
    parseFromTextL ((k1 ++ '=' :: (intChars n ++ '=' :: j1)) ++ '\n' ::
        (k2 ++ '=' :: (intChars m ++ '=' :: j2)))
      = Except.ok ⟨n, m, []⟩ := by
  have hL2 : '\n' ∉ (k2 ++ '=' :: (intChars m ++ '=' :: j2)) := by
    intro hc
    simp only [List.mem_append, List.mem_cons] at hc
    rcases hc with hc | hc | hc | hc | hc
    · exact hk2n hc
    · cases hc
    · exact nl_not_mem_intChars m hc
    · cases hc
    · exact hj2n hc
  have hL1 : '\n' ∉ (k1 ++ '=' :: (intChars n ++ '=' :: j1)) := by
    intro hc
    simp only [List.mem_append, List.mem_cons] at hc
    rcases hc with hc | hc | hc | hc | hc
    · exact hk1n hc
    · cases hc
    · exact nl_not_mem_intChars n hc
    · cases hc
    · exact hj1n hc
  have hsplit : splitCh '\n' ((k1 ++ '=' :: (intChars n ++ '=' :: j1)) ++ '\n' ::
      (k2 ++ '=' :: (intChars m ++ '=' :: j2))) =
      [k1 ++ '=' :: (intChars n ++ '=' :: j1), k2 ++ '=' :: (intChars m ++ '=' :: j2)] := by
    rw [splitCh_append hL1, splitCh_no_sep hL2]
  have hmem_sub : ∀ (x : List Char), '=' ∉ x → '=' ∉ List.dropWhile isWS x := by
    intro x hx hc
    exact hx ((List.dropWhile_sublist isWS).mem hc)
  have hne : ∀ (a mid b : List Char), a ++ '=' :: (mid ++ '=' :: b) ≠ [] := by
    intro a mid b hc
    rcases List.append_eq_nil.mp hc with ⟨_, hc2⟩
    cases hc2
  have hclean : cleanLines ((k1 ++ '=' :: (intChars n ++ '=' :: j1)) ++ '\n' ::
      (k2 ++ '=' :: (intChars m ++ '=' :: j2))) =
      (List.dropWhile isWS k1 ++ '=' :: (intChars n ++ '=' ::
        (List.dropWhile isWS j1.reverse).reverse)) ::
      (List.dropWhile isWS k2 ++ '=' :: (intChars m ++ '=' ::
        (List.dropWhile isWS j2.reverse).reverse)) :: [] := by
    unfold cleanLines
    rw [hsplit]
    rw [List.map_cons, List.map_cons, List.map_nil]
    rw [pyStrip_keyval, pyStrip_keyval]
    rw [List.filter_cons, List.filter_cons, List.filter_nil]
    rw [if_pos (by rw [decide_eq_true_iff]; exact hne _ _ _),
      if_pos (by rw [decide_eq_true_iff]; exact hne _ _ _)]
  rw [parseFromTextL]
  rw [load_from_file_eq ⟨0, 0, []⟩ _ _ _ [] hclean n m
    (headerValue_keyval _ _ (hmem_sub k1 hk1) n)
    (headerValue_keyval _ _ (hmem_sub k2 hk2) m)]
  rfl

theorem claim10_amended_witness :
    (('=' ∉ ['c', 'o', 'l', 's']) ∧ ('\n' ∉ ['c', 'o', 'l', 's'])
      ∧ ('\n' ∉ ['x'])
      ∧ ('=' ∉ ['r', 'o', 'w', 's']) ∧ ('\n' ∉ ['r', 'o', 'w', 's'])
      ∧ ('\n' ∉ ([] : List Char)))
    ∧ parseFromTextL ((['c', 'o', 'l', 's'] ++ '=' :: (intChars 5 ++ '=' :: ['x'])) ++ '\n' ::
        (['r', 'o', 'w', 's'] ++ '=' :: (intChars 7 ++ '=' :: [])))
      = Except.ok ⟨5, 7, []⟩ :=
  ⟨⟨by decide, by decide, by decide, by decide, by decide, by decide⟩,
    claim10_amended ['c', 'o', 'l', 's'] ['x'] ['r', 'o', 'w', 's'] [] 5 7
      (by decide) (by decide) (by decide)
      (by decide) (by decide) (by decide)⟩

end SpMat
